import Mathlib

/-!
Verification of the dynamic-schema/normalization core of the `elta-import`
repository (`src/app.py`) against its natural-language specification.

The Python code manipulates pandas `DataFrame`s and two SQL backends.  The
shallow embedding below models:

* a cell value (`Cell`) — Python `None`/`NaN`, strings, `Int64` integers and
  floating-point numbers (floats are idealized as rationals; none of the
  verified properties depends on IEEE rounding);
* a dataframe (`Frame`) — an ordered list of column labels (duplicates
  allowed, as in pandas) plus rows of cells aligned positionally;
* the rules table, the field registry, the uploads table and the `data` table
  as Lean lists, in insertion order (SQLite `rowid` / PostgreSQL heap order).

Fallible pandas operations (raising `ValueError`/`TypeError`/...) are embedded
with `Except String`.
-/

namespace Elta

/-- A single dataframe cell: Python `None`/`NaN`, a string, a pandas `Int64`
integer or a floating-point number (idealized as a rational). -/
inductive Cell where
  | null : Cell
  | str (s : String) : Cell
  | int (n : Int) : Cell
  | real (q : ℚ) : Cell
deriving DecidableEq

/-- Python `str.lower` restricted to the alphabets this repository uses:
ASCII `A`–`Z` and Cyrillic `А`–`Я`/`Ё`.  (Python lowercases all of Unicode;
every string literal in `src/app.py` is Latin or Cyrillic.) -/
def lowerChar (c : Char) : Char :=
  if 'A' ≤ c ∧ c ≤ 'Z' then Char.ofNat (c.toNat + 32)
  else if 0x410 ≤ c.toNat ∧ c.toNat ≤ 0x42F then Char.ofNat (c.toNat + 0x20)
  else if c.toNat = 0x401 then Char.ofNat 0x451
  else c

/-- Python `str.lower` (see `lowerChar`). -/
def pyLower (s : String) : String := ⟨s.data.map lowerChar⟩

/-- Whitespace characters stripped by Python `str.strip()`. -/
def isPySpace (c : Char) : Bool :=
  c = ' ' ∨ c = '\t' ∨ c = '\n' ∨ c = '\r' ∨ c = Char.ofNat 11 ∨ c = Char.ofNat 12

/-- Python `str.strip()` (also the semantics of `Series.str.strip()`). -/
def pyStrip (s : String) : String :=
  ⟨((s.data.dropWhile isPySpace).reverse.dropWhile isPySpace).reverse⟩

/-- Python `str(value)` as applied by `Series.astype(str)` in
`apply_mapping_rules`: `None` prints as `"None"`, integers as decimal
numerals.  Floats print via Python `repr`; the model prints an integral
float `n` as `"n.0"` (as Python does) and falls back to a fraction notation
otherwise — no verified property evaluates `pyStr` on a non-integral float. -/
def pyStr : Cell → String
  | .null => "None"
  | .str s => s
  | .int n => toString n
  | .real q => if q.den = 1 then toString q.num ++ ".0" else toString q

/-- Case-insensitive occurrence of `pat` inside `s`, the semantics of
`Series.str.contains(pat, case=False)` for a pattern with no regular
expression metacharacters.  (pandas compiles `pat` with `re.IGNORECASE`;
on metacharacter-free patterns that is exactly case-insensitive substring
search.  Theorems about this function restrict to such patterns, see
`regexFreePat`.) -/
def containsCI (pat s : String) : Bool :=
  decide ((pyLower pat).data <:+: (pyLower s).data)

/-- Characters that are metacharacters of Python regular expressions.
`Series.str.contains` treats its pattern as a regex, so the substring model
`containsCI` is faithful only for patterns avoiding these. -/
def REGEX_METACHARS : List Char :=
  ['.', '^', '$', '*', '+', '?', Char.ofNat 123, Char.ofNat 125,
   '[', ']', '(', ')', '|', '\\']

/-- A pattern containing no regex metacharacter: on these,
`str.contains(pat, case=False)` is case-insensitive substring search. -/
def regexFreePat (s : String) : Bool :=
  s.data.all (fun c => ¬ c ∈ REGEX_METACHARS)

/-- Value of a digit string (most significant first). -/
def digitsVal (l : List Char) : Nat :=
  l.foldl (fun a c => a * 10 + (c.toNat - 48)) 0

/-- The numeric-literal parsing performed by `pd.to_numeric(errors="coerce")`
on a string: surrounding whitespace stripped, optional sign, decimal digits
with an optional fractional part; anything else coerces to `NaN` (`none`).
A literal `d₁…dₘ.f₁…fₖ` denotes the rational `d₁…dₘf₁…fₖ / 10^k`, built with
`mkRat`.  (Exponent notation is not modelled; no claim exercises it.) -/
def parseNum (s : String) : Option ℚ :=
  let t := (pyStrip s).data
  let signed : Int × List Char :=
    match t with
    | '-' :: r => (-1, r)
    | '+' :: r => (1, r)
    | _ => (1, t)
  let ip := signed.2.takeWhile Char.isDigit
  let rest := signed.2.dropWhile Char.isDigit
  match rest with
  | [] => if ip.isEmpty then none else some (mkRat (signed.1 * digitsVal ip) 1)
  | '.' :: frac =>
      if frac.all Char.isDigit ∧ ¬ (ip.isEmpty ∧ frac.isEmpty) then
        some (mkRat (signed.1 * (digitsVal ip * 10 ^ frac.length + digitsVal frac))
          (10 ^ frac.length))
      else none
  | _ => none

instance {α β : Type} [DecidableEq α] [DecidableEq β] : DecidableEq (Except α β) :=
  fun a b =>
    match a, b with
    | .error x, .error y =>
        if h : x = y then .isTrue (by rw [h])
        else .isFalse (by intro hc; injection hc; contradiction)
    | .ok x, .ok y =>
        if h : x = y then .isTrue (by rw [h])
        else .isFalse (by intro hc; injection hc; contradiction)
    | .error _, .ok _ => .isFalse (by intro hc; injection hc)
    | .ok _, .error _ => .isFalse (by intro hc; injection hc)

/-- A dataframe: ordered column labels (duplicates allowed, as in pandas)
and rows of cells aligned by position. -/
structure Frame where
  cols : List String
  rows : List (List Cell)
deriving DecidableEq

/-- Well-formedness: every row has exactly one cell per column. -/
def Frame.wfb (f : Frame) : Bool :=
  f.rows.all (fun r => r.length = f.cols.length)

/-- Cell of a row at a column position (`Cell.null` when out of range;
all verified statements stay in range via `Frame.wfb`). -/
def cellAt (r : List Cell) (i : Nat) : Cell := r.getD i Cell.null

/-- Positions (from offset `k`) at which label `c` occurs. -/
def indicesOfAux (c : String) : List String → Nat → List Nat
  | [], _ => []
  | x :: xs, k =>
      if x = c then k :: indicesOfAux c xs (k + 1) else indicesOfAux c xs (k + 1)

/-- All positions at which label `c` occurs in `cols` — the column positions
pandas associates with a (possibly duplicated) label. -/
def indicesOf (c : String) (cols : List String) : List Nat := indicesOfAux c cols 0

/-- The cells of the first column labelled `c` (`none` if no such column). -/
def colCells (f : Frame) (c : String) : Option (List Cell) :=
  match indicesOf c f.cols with
  | i :: _ => some (f.rows.map (fun r => cellAt r i))
  | [] => none

/-- `IMPORT_COLUMNS_23` from `src/app.py`: the canonical 23-column import
template used for positional header renaming. -/
def IMPORT_COLUMNS_23 : List String :=
  ["Год", "Месяц", "Код_клиента", "Наименование_товара_клиента",
   "Поставщик", "Поставщик_общий", "Сеть", "Юр_лицо", "Адрес_аптеки",
   "Регион", "Федеральный_округ",
   "Закупки_колво", "Закупки_сумма",
   "Продажи_колво", "Продажи_сумма",
   "Остатки_колво",
   "Артикул_Элта", "Полное_наименование_Элта",
   "Глюкометры", "Тест_полоски_50", "Тест_полоски_25",
   "Региональный_менеджер", "Медицинский_представитель"]

/-- `DEFAULT_NUMERIC_FIELDS` from `src/app.py`: the declared numeric business
fields. -/
def DEFAULT_NUMERIC_FIELDS : List String :=
  ["Закупки_колво", "Закупки_сумма", "Продажи_колво", "Продажи_сумма", "Остатки_колво",
   "Глюкометры", "Глюкометр_Сателлит", "Глюкометр_Плюс", "Глюкометр_Экспресс",
   "Тест_полоски_50", "ТП_Сателлит_50", "ТП_Плюс_50", "ТП_Экспресс_50",
   "Тест_полоски_25", "ТП_Сателлит_25", "ТП_Плюс_25", "ТП_Экспресс_25"]

/-- The integer-like identity fields coerced to nullable `Int64` by the first
loop of `coerce_types`. -/
def INT_ID_FIELDS : List String := ["Код_клиента", "Артикул_Элта", "Год", "Месяц"]

/-- The header-alias table applied by `df.rename(columns={...})` inside
`parse_file`, as (source header, canonical field) pairs. -/
def HEADER_ALIASES : List (String × String) :=
  [("Код клиента", "Код_клиента"),
   ("Наименование товара клиента", "Наименование_товара_клиента"),
   ("Поставщик общий", "Поставщик_общий"),
   ("Юридическое лицо", "Юр_лицо"),
   ("Адрес аптеки", "Адрес_аптеки"),
   ("Федеральный округ", "Федеральный_округ"),
   ("Артикул Элта", "Артикул_Элта"),
   ("Полное наименование Элта", "Полное_наименование_Элта"),
   ("Региональный менеджер", "Региональный_менеджер"),
   ("Медицинский представитель", "Медицинский_представитель"),
   ("Закупки Кол-во упаковок", "Закупки_колво"),
   ("Закупки кол-во упаковок", "Закупки_колво"),
   ("Закупки сумма в закупочных ценах", "Закупки_сумма"),
   ("Продажи кол-во упаковок", "Продажи_колво"),
   ("Продажи сумма в закупочных ценах", "Продажи_сумма"),
   ("Продажи сумма в закупочных ценах/ценах реализации", "Продажи_сумма"),
   ("Остатки кол-во упаковок", "Остатки_колво"),
   ("Тест-полоски 50", "Тест_полоски_50"),
   ("Тест-полоски 25", "Тест_полоски_25")]

/-- One row of the `mapping_rules` table. -/
structure Rule where
  id : Nat
  field : String
  source_text : String
  target_text : String
  match_type : String
deriving DecidableEq

/-- Insert a rule into a list sorted by descending `id` (helper realizing the
`ORDER BY id DESC` of `load_mapping_rules`). -/
def insertDescById (r : Rule) : List Rule → List Rule
  | [] => [r]
  | x :: xs => if x.id ≤ r.id then r :: x :: xs else x :: insertDescById r xs

/-- Sort a rules table by descending `id`. -/
def sortDescById (l : List Rule) : List Rule := l.foldr insertDescById []

/-- `load_mapping_rules` from `src/app.py`: reads the `mapping_rules` table
with `ORDER BY id DESC`.  The table is passed as a list in insertion order
(ascending autoincrement `id`). -/
def load_mapping_rules (tbl : List Rule) : List Rule := sortDescById tbl

/-- The boolean mask `apply_mapping_rules` computes for one cell of the rule's
column: `equals` compares the stripped, lowercased stringified cell with the
stripped, lowercased `source_text`; any other `match_type` runs
`str.contains(source_text, case=False, na=False)` on the stringified cell.
Because the column was passed through `astype(str)` first, a null cell is the
string `"None"` here (`na=False` no longer sees any `NaN`), and the `contains`
pattern is a regular expression — `containsCI` models the metacharacter-free
case. -/
def ruleMask (r : Rule) (c : Cell) : Bool :=
  if r.match_type = "equals" then
    pyLower (pyStrip (pyStr c)) == pyLower (pyStrip r.source_text)
  else
    containsCI r.source_text (pyStr c)

/-- One iteration of the rule loop in `apply_mapping_rules`: skip the rule if
its field names no column; with a duplicated column label pandas raises
(`Series.str` on a `DataFrame`); otherwise overwrite the masked cells with
`target_text`. -/
def applyRuleStep (f : Frame) (r : Rule) : Except String Frame :=
  match indicesOf r.field f.cols with
  | [] => .ok f
  | [i] =>
      .ok ⟨f.cols, f.rows.map (fun row =>
        if ruleMask r (cellAt row i) then row.set i (Cell.str r.target_text) else row)⟩
  | _ => .error "duplicate column label"

/-- `apply_mapping_rules` from `src/app.py`: returns the frame unchanged on an
empty rules table, otherwise folds `applyRuleStep` over the rules in the
given order. -/
def apply_mapping_rules (f : Frame) (rules : List Rule) : Except String Frame :=
  if rules.isEmpty then .ok f else rules.foldlM applyRuleStep f

/-- Identity-field coercion of a single cell:
`pd.to_numeric(col, errors="coerce").astype("Int64")`.  Unparseable strings
and nulls become null; integral values become `Int64` integers; a
non-integral numeric value makes `astype("Int64")` raise (cannot safely
cast). -/
def coerceIdCellE : Cell → Except String Cell
  | .null => .ok .null
  | .str s =>
      match parseNum s with
      | none => .ok .null
      | some q => if q.den = 1 then .ok (.int q.num) else .error "cannot safely cast to Int64"
  | .int n => .ok (.int n)
  | .real q => if q.den = 1 then .ok (.int q.num) else .error "cannot safely cast to Int64"

/-- Numeric-field coercion of a single cell:
`pd.to_numeric(col, errors="coerce").fillna(0)`.  Unparseable strings and
nulls become `0`; parsed values are kept. -/
def coerceNumCell : Cell → Cell
  | .null => .real 0
  | .str s =>
      match parseNum s with
      | none => .real 0
      | some q => .real q
  | .int n => .int n
  | .real q => .real q

/-- Map a fallible per-cell function over position `i` of every row. -/
def mapRowsE (g : Cell → Except String Cell) (i : Nat) :
    List (List Cell) → Except String (List (List Cell))
  | [] => .ok []
  | row :: rest => do
      let v ← g (cellAt row i)
      let rest' ← mapRowsE g i rest
      .ok (row.set i v :: rest')

/-- Apply a per-cell coercion to the column labelled `c`, as
`df2[col] = pd.to_numeric(df2[col], ...)` does: absent label — skip;
duplicated label — pandas raises (`to_numeric` on a `DataFrame`); otherwise
map the cells. -/
def coerceColE (g : Cell → Except String Cell) (c : String) (f : Frame) :
    Except String Frame :=
  match indicesOf c f.cols with
  | [] => .ok f
  | [i] => (mapRowsE g i f.rows).map (fun rows => (⟨f.cols, rows⟩ : Frame))
  | _ => .error "duplicate column label"

/-- `coerce_types` from `src/app.py`: first the identity fields are coerced to
nullable `Int64`, then the declared numeric fields to floats with
`fillna(0)`. -/
def coerce_types (f : Frame) : Except String Frame := do
  let f1 ← INT_ID_FIELDS.foldlM (fun acc c => coerceColE coerceIdCellE c acc) f
  DEFAULT_NUMERIC_FIELDS.foldlM
    (fun acc c => coerceColE (fun v => .ok (coerceNumCell v)) c acc) f1

/-- Whether a cell belongs to a numeric-dtype column for the purpose of
`DataFrame.sum(numeric_only=True)`: numbers and nulls (`NaN`). -/
def cellIsNumOrNull : Cell → Bool
  | .null => true
  | .int _ => true
  | .real _ => true
  | .str _ => false

/-- Numeric value of a cell (`0` for nulls — `sum` skips `NaN`). -/
def cellNumVal : Cell → ℚ
  | .int n => (n : ℚ)
  | .real q => q
  | _ => 0

/-- Rational addition written through `mkRat` (definitionally evaluable;
proved equal to `+` in `addQ_eq_add`). -/
def addQ (a b : ℚ) : ℚ :=
  mkRat (a.num * (b.den : Int) + b.num * (a.den : Int)) (a.den * b.den)

/-- Sum of a list of rationals via `addQ` (proved equal to `List.sum` in
`sumQ_eq_sum`). -/
def sumQ (l : List ℚ) : ℚ := l.foldr addQ 0

/-- Column total as computed by
`df2[numeric_cols].sum(numeric_only=True)` + `totals.get(c, 0)`: a column of
numbers/nulls sums with `NaN` skipped; a column holding any string has object
dtype, is dropped by `numeric_only=True`, and `totals.get(c, 0)` yields `0`. -/
def columnSum (cells : List Cell) : ℚ :=
  if cells.all cellIsNumOrNull then sumQ (cells.map cellNumVal) else 0

/-- `compute_totals_row` from `src/app.py`.  If any declared numeric field is
a column, append one synthetic row: the row dict holds `""` for every column,
the column total for each numeric column, and `"ИТОГО"` under the key
`"Итого"`; `df2.loc["ИТОГО"] = total_row` aligns that dict to the existing
columns (extra keys are dropped, so the sentinel appears only when `"Итого"`
is a column).  Frames with duplicated column labels make the pandas
reindexing raise; the verified statements assume unique labels. -/
def compute_totals_row (f : Frame) : Frame :=
  let numericCols := DEFAULT_NUMERIC_FIELDS.filter (fun c => c ∈ f.cols)
  if numericCols.isEmpty then f
  else
    let sumOf : String → ℚ := fun c =>
      match colCells f c with
      | some cells => columnSum cells
      | none => 0
    let totalRow : List Cell := f.cols.map (fun c =>
      if c ∈ numericCols then Cell.real (sumOf c)
      else if c = "Итого" then Cell.str "ИТОГО"
      else Cell.str "")
    ⟨f.cols, f.rows ++ [totalRow]⟩

/-- The year-marker test of `parse_file`:
`any(str(c).strip().lower() in ["год", "year"] for c in df.columns)`. -/
def hasYearCol (cols : List String) : Bool :=
  cols.any (fun c => pyLower (pyStrip c) = "год" ∨ pyLower (pyStrip c) = "year")

/-- Header alias renaming (`df.rename(columns={...})`): labels found in
`HEADER_ALIASES` are replaced, all others kept. -/
def aliasRename (c : String) : String :=
  match HEADER_ALIASES.lookup c with
  | some t => t
  | none => c

/-- The header-reconciliation prefix of `parse_file`: if no year column is
present the headers are assumed positional and replaced by the canonical
template (`df.columns = IMPORT_COLUMNS_23[:len(df.columns)]` — a length
mismatch raises when the frame has more than 23 columns); then the alias
table is applied. -/
def renameHeaders (f : Frame) : Except String Frame := do
  let f1 ←
    if hasYearCol f.cols then .ok f
    else if f.cols.length ≤ 23 then
      .ok (⟨IMPORT_COLUMNS_23.take f.cols.length, f.rows⟩ : Frame)
    else .error "Length mismatch: columns"
  .ok ⟨f1.cols.map aliasRename, f1.rows⟩

/-- Append an all-null column (`df[f] = None`). -/
def addNullCol (f : Frame) (c : String) : Frame :=
  ⟨f.cols ++ [c], f.rows.map (fun r => r ++ [Cell.null])⟩

/-- The registry-completion loop of `parse_file`: every registry field absent
from the frame is created with value `None`. -/
def completeRegistry (f : Frame) (registry : List String) : Frame :=
  registry.foldl (fun acc fld => if fld ∈ acc.cols then acc else addNullCol acc fld) f

/-- Column projection `df[ordered]`: for each requested label, every column
carrying it (pandas expands duplicated labels). -/
def selectCols (f : Frame) (names : List String) : Frame :=
  let idxs := names.flatMap (fun n => indicesOf n f.cols)
  ⟨idxs.map (fun i => f.cols.getD i ""),
   f.rows.map (fun r => idxs.map (fun i => cellAt r i))⟩

/-- `parse_file` from `src/app.py`, taking the already-read spreadsheet frame
(`pd.read_excel` output), the field registry (the `fields_registry` table in
insertion order) and the `mapping_rules` table: header reconciliation,
registry completion, rule application, type coercion, then projection onto
the registry fields present. -/
def parse_file (f : Frame) (registry : List String) (rulesTbl : List Rule) :
    Except String Frame := do
  let f1 ← renameHeaders f
  let f2 := completeRegistry f1 registry
  let f3 ← apply_mapping_rules f2 (load_mapping_rules rulesTbl)
  let f4 ← coerce_types f3
  let ordered := registry.filter (fun c => c ∈ f4.cols)
  .ok (selectCols f4 ordered)

/-- One row of the `uploads` table. -/
structure Upload where
  id : Nat
  filename : String
  uploaded_by : String
  uploaded_at : String
deriving DecidableEq

/-- One row of the wide `data` table (only the audit attributes the deletion
path inspects are modelled individually). -/
structure DataRow where
  id : Nat
  upload_id : Nat
  uploaded_by : String
deriving DecidableEq

/-- The persistent state touched by `delete_upload`. -/
structure Db where
  uploads : List Upload
  dataRows : List DataRow
deriving DecidableEq

/-- `delete_upload` from `src/app.py`: a `"user"`-role principal is checked
against `uploads.uploaded_by` (first row of `SELECT uploaded_by FROM uploads
WHERE id=...`) and denied — with no deletion — when the upload is absent or
owned by someone else; otherwise the `data` rows of the upload and the upload
row itself are deleted and `True` is returned. -/
def delete_upload (db : Db) (uploadId : Nat) (userEmail roleStr : String) :
    Bool × Db :=
  let purged : Db :=
    ⟨db.uploads.filter (fun u => ¬ u.id = uploadId),
     db.dataRows.filter (fun r => ¬ r.upload_id = uploadId)⟩
  if roleStr = "user" then
    match db.uploads.find? (fun u => u.id == uploadId) with
    | none => (false, db)
    | some u => if ¬ u.uploaded_by = userEmail then (false, db) else (true, purged)
  else (true, purged)

/-- One row of the `fields_registry` table. -/
structure RegEntry where
  field : String
  field_type : String
  created_at : String
deriving DecidableEq

/-- The schema state touched by `update_field_registry`: the registry table
and the physical column names of the `data` table. -/
structure SchemaState where
  registry : List RegEntry
  dataCols : List String
deriving DecidableEq

/-- `update_field_registry` from `src/app.py`.  `remote` selects the
PostgreSQL branch (a `DATABASE_URL` is configured).  The registry row is
updated unconditionally; when the name changes, PostgreSQL renames the
physical column while the SQLite branch is a bare `pass` — the physical
column keeps its old name.  The Python function returns `None` on every
path; the second component models the warning surfaced to the caller and is
`none` on every path.  (On PostgreSQL a rename of a non-existent physical
column would raise; the verified statements rename existing columns.) -/
def update_field_registry (remote : Bool) (st : SchemaState)
    (oldField newField newType : String) : SchemaState × Option String :=
  let reg' := st.registry.map (fun e =>
    if e.field = oldField then ⟨newField, newType, e.created_at⟩ else e)
  if ¬ oldField = newField then
    if remote then
      (⟨reg', st.dataCols.map (fun c => if c = oldField then newField else c)⟩, none)
    else
      (⟨reg', st.dataCols⟩, none)
  else (⟨reg', st.dataCols⟩, none)

/-- `delete_field_registry` from `src/app.py`:
`DELETE FROM fields_registry WHERE field=...`. -/
def delete_field_registry (reg : List RegEntry) (field : String) : List RegEntry :=
  reg.filter (fun e => ¬ e.field = field)

/-- The protected-field list of the admin-tab delete handler in
`src/app.py`. -/
def PROTECTED_FIELDS : List String :=
  ["id", "upload_id", "uploaded_by", "uploaded_at", "Год", "Месяц", "Код_клиента"]

/-- The admin-tab delete-field handler of `src/app.py`: a protected field is
rejected with an error message and the registry is not touched; any other
field is removed via `delete_field_registry`. -/
def admin_delete_field (reg : List RegEntry) (field : String) :
    Except String (List RegEntry) :=
  if field ∈ PROTECTED_FIELDS then
    .error ("'" ++ field ++ "' защищено от удаления.")
  else
    .ok (delete_field_registry reg field)

/-- `ensure_column` from `src/app.py`, over the `data` table's physical
columns as (name, type) pairs.  `remote = true` is the PostgreSQL branch:
`ALTER TABLE ... ADD COLUMN` inside `try/except: pass`, so an existing column
leaves the table unchanged; `remote = false` is the SQLite branch: the
`PRAGMA table_info` name set is consulted and the column added only when
missing.  Both branches add the column exactly when its name is absent. -/
def ensure_column (remote : Bool) (tableCols : List (String × String))
    (column colType : String) : List (String × String) :=
  if remote then
    if column ∈ tableCols.map Prod.fst then tableCols
    else tableCols ++ [(column, colType)]
  else
    if column ∈ tableCols.map Prod.fst then tableCols
    else tableCols ++ [(column, colType)]

/-- The specification-side reading of rule matching (§4.4 step 3 of the
spec, amended): `equals` — the stringified cell equals `source_text` after
stripping and case-folding both sides; otherwise (`contains`) — the
case-folded `source_text` occurs as a contiguous substring of the case-folded
stringified cell.  Stated propositionally, to be compared with the
executable `ruleMask` taken from the code. -/
def specMatch (r : Rule) (c : Cell) : Prop :=
  if r.match_type = "equals" then
    pyLower (pyStrip (pyStr c)) = pyLower (pyStrip r.source_text)
  else
    (pyLower r.source_text).data <:+: (pyLower (pyStr c)).data

/-- The registry fields the completion loop of `parse_file` adds to a frame
with columns `cols`, in order (each checked against the columns accumulated
so far, so a duplicated registry entry is added once). -/
def missingFields (cols : List String) : List String → List String
  | [] => []
  | fld :: rest =>
      if fld ∈ cols then missingFields cols rest
      else fld :: missingFields (cols ++ [fld]) rest

/-! ## Theorems -/

/-! ### Generic list lemmas -/

theorem getD_map_of_lt {α β : Type} (g : α → β) (l : List α) (j : Nat) (d : α) (d' : β)
    (hj : j < l.length) : (l.map g).getD j d' = g (l.getD j d) := by
  induction l generalizing j with
  | nil => simp at hj
  | cons a t ih =>
      cases j with
      | zero => rfl
      | succ j => simpa using ih j (by simpa using hj)

theorem getD_set_self_of_lt {α : Type} (l : List α) (i : Nat) (v d : α)
    (h : i < l.length) : (l.set i v).getD i d = v := by
  induction l generalizing i with
  | nil => simp at h
  | cons a t ih =>
      cases i with
      | zero => rfl
      | succ i => simpa using ih i (by simpa using h)

theorem getD_set_of_ne {α : Type} (l : List α) (i j : Nat) (v d : α)
    (h : ¬ i = j) : (l.set i v).getD j d = l.getD j d := by
  induction l generalizing i j with
  | nil => simp
  | cons a t ih =>
      cases i with
      | zero =>
          cases j with
          | zero => exact absurd rfl h
          | succ j => rfl
      | succ i =>
          cases j with
          | zero => rfl
          | succ j => simpa using ih i j (by omega)

theorem getD_append_left_of_lt {α : Type} (l l' : List α) (n : Nat) (d : α)
    (h : n < l.length) : (l ++ l').getD n d = l.getD n d := by
  induction l generalizing n with
  | nil => simp at h
  | cons a t ih =>
      cases n with
      | zero => rfl
      | succ n => simpa using ih n (by simpa using h)

theorem getD_append_right_len {α : Type} (l l' : List α) (j : Nat) (d : α) :
    (l ++ l').getD (l.length + j) d = l'.getD j d := by
  induction l with
  | nil => simp
  | cons a t ih => simpa [Nat.succ_add] using ih


/-! ### Rational helpers -/

theorem addQ_eq_add (a b : ℚ) : addQ a b = a + b := by
  unfold addQ
  rw [Rat.mkRat_eq_div]
  have ha : ((a.den : ℚ)) ≠ 0 := by
    exact_mod_cast a.den_nz
  have hb : ((b.den : ℚ)) ≠ 0 := by
    exact_mod_cast b.den_nz
  rw [show a + b = (a.num : ℚ) / (a.den : ℚ) + (b.num : ℚ) / (b.den : ℚ) by
    rw [Rat.num_div_den, Rat.num_div_den]]
  push_cast
  rw [div_add_div _ _ ha hb]
  ring_nf

theorem sumQ_eq_sum (l : List ℚ) : sumQ l = l.sum := by
  induction l with
  | nil => rfl
  | cons a t ih => rw [sumQ, List.foldr_cons, List.sum_cons, addQ_eq_add]; rw [sumQ] at ih; rw [ih]

/-! ### Column-index lemmas -/

theorem indicesOfAux_eq_nil_of_not_mem (c : String) (xs : List String) (k : Nat)
    (h : ¬ c ∈ xs) : indicesOfAux c xs k = [] := by
  induction xs generalizing k with
  | nil => rfl
  | cons x t ih =>
      rw [indicesOfAux, if_neg (by intro he; exact h (by simp [he]))]
      exact ih _ (fun hm => h (by simp [hm]))

theorem mem_of_indicesOfAux (c : String) (xs : List String) :
    ∀ k n, n ∈ indicesOfAux c xs k →
      ∃ j, j < xs.length ∧ n = k + j ∧ xs.getD j "" = c := by
  induction xs with
  | nil => intro k n hn; simp [indicesOfAux] at hn
  | cons x t ih =>
      intro k n hn
      rw [indicesOfAux] at hn
      by_cases hx : x = c
      · rw [if_pos hx] at hn
        rcases List.mem_cons.mp hn with h0 | h1
        · exact ⟨0, by simp, by simpa using h0, by simpa using hx⟩
        · rcases ih (k + 1) n h1 with ⟨j, hj, hk, hg⟩
          exact ⟨j + 1, by simpa using Nat.succ_lt_succ hj, by omega, by simpa using hg⟩
      · rw [if_neg hx] at hn
        rcases ih (k + 1) n hn with ⟨j, hj, hk, hg⟩
        exact ⟨j + 1, by simpa using Nat.succ_lt_succ hj, by omega, by simpa using hg⟩

theorem indicesOfAux_singleton_of_nodup (c : String) (xs : List String)
    (hnd : xs.Nodup) (hmem : c ∈ xs) :
    ∀ k, ∃ j, j < xs.length ∧ xs.getD j "" = c ∧ indicesOfAux c xs k = [k + j] := by
  induction xs with
  | nil => simp at hmem
  | cons x t ih =>
      intro k
      rcases List.nodup_cons.mp hnd with ⟨hx, hndt⟩
      by_cases hxc : x = c
      · refine ⟨0, by simp, by simpa using hxc, ?_⟩
        rw [indicesOfAux, if_pos hxc]
        subst hxc
        rw [indicesOfAux_eq_nil_of_not_mem _ _ _ hx]
        simp
      · have hmt : c ∈ t := by
          rcases List.mem_cons.mp hmem with h0 | h1
          · exact absurd h0.symm hxc
          · exact h1
        rcases ih hndt hmt (k + 1) with ⟨j, hj, hg, he⟩
        refine ⟨j + 1, by simpa using Nat.succ_lt_succ hj, by simpa using hg, ?_⟩
        rw [indicesOfAux, if_neg hxc, he]
        congr 1
        omega

theorem indicesOf_singleton_of_nodup (c : String) (cols : List String)
    (hnd : cols.Nodup) (hmem : c ∈ cols) :
    ∃ j, j < cols.length ∧ cols.getD j "" = c ∧ indicesOf c cols = [j] := by
  rcases indicesOfAux_singleton_of_nodup c cols hnd hmem 0 with ⟨j, hj, hg, he⟩
  exact ⟨j, hj, hg, by simpa using he⟩

theorem getD_mem_of_lt {α : Type} (l : List α) (i : Nat) (d : α)
    (h : i < l.length) : l.getD i d ∈ l := by
  induction l generalizing i with
  | nil => simp at h
  | cons x t ih =>
      cases i with
      | zero => simp
      | succ i =>
          have := ih i (by simpa using h)
          rw [List.getD_cons_succ]
          exact List.mem_cons_of_mem x this

theorem wfb_row_length (f : Frame) (hwf : f.wfb = true) (j : Nat)
    (hj : j < f.rows.length) : (f.rows.getD j []).length = f.cols.length := by
  rw [Frame.wfb] at hwf
  have hmem := getD_mem_of_lt f.rows j [] hj
  have := List.all_eq_true.mp hwf _ hmem
  simpa using this

theorem nodup_getD_inj (cols : List String) (hnd : cols.Nodup) (i j : Nat)
    (hi : i < cols.length) (hj : j < cols.length)
    (he : cols.getD i "" = cols.getD j "") : i = j := by
  induction cols generalizing i j with
  | nil => simp at hi
  | cons x t ih =>
      rcases List.nodup_cons.mp hnd with ⟨hx, hndt⟩
      cases i with
      | zero =>
          cases j with
          | zero => rfl
          | succ j =>
              exfalso
              apply hx
              rw [List.getD_cons_zero] at he
              rw [List.getD_cons_succ] at he
              rw [he]
              exact getD_mem_of_lt t j "" (by simpa using hj)
      | succ i =>
          cases j with
          | zero =>
              exfalso
              apply hx
              rw [List.getD_cons_zero] at he
              rw [List.getD_cons_succ] at he
              rw [← he]
              exact getD_mem_of_lt t i "" (by simpa using hi)
          | succ j =>
              have := ih hndt i j (by simpa using hi) (by simpa using hj)
                (by simpa [List.getD_cons_succ] using he)
              omega

theorem indicesOf_eq_singleton_self (cols : List String) (hnd : cols.Nodup)
    (i : Nat) (hi : i < cols.length) :
    indicesOf (cols.getD i "") cols = [i] := by
  rcases indicesOf_singleton_of_nodup (cols.getD i "") cols hnd
    (getD_mem_of_lt cols i "" hi) with ⟨j, hj, hg, he⟩
  have : i = j := nodup_getD_inj cols hnd i j hi hj hg.symm
  rw [he, this]

theorem indicesOfAux_append (c : String) (xs ys : List String) :
    ∀ k, indicesOfAux c (xs ++ ys) k =
      indicesOfAux c xs k ++ indicesOfAux c ys (k + xs.length) := by
  induction xs with
  | nil => intro k; simp [indicesOfAux]
  | cons x t ih =>
      intro k
      have hlen : k + 1 + t.length = k + (x :: t).length := by
        rw [List.length_cons]
        omega
      rw [List.cons_append, indicesOfAux, indicesOfAux]
      by_cases hx : x = c
      · rw [if_pos hx, if_pos hx, ih (k + 1), hlen]
        rfl
      · rw [if_neg hx, if_neg hx, ih (k + 1), hlen]

/-! ### Rule-ordering lemmas (C4) -/

theorem insertDescById_append_of_lt (r : Rule) (l : List Rule)
    (h : ∀ x ∈ l, r.id < x.id) : insertDescById r l = l ++ [r] := by
  induction l with
  | nil => rfl
  | cons x xs ih =>
      have hx := h x (by simp)
      rw [insertDescById, if_neg (by omega)]
      rw [ih (fun y hy => h y (by simp [hy]))]
      rfl

theorem sortDescById_of_ascending (tbl : List Rule)
    (h : tbl.Pairwise (fun a b => a.id < b.id)) : sortDescById tbl = tbl.reverse := by
  induction tbl with
  | nil => rfl
  | cons a xs ih =>
      rcases List.pairwise_cons.mp h with ⟨ha, hxs⟩
      have : sortDescById (a :: xs) = insertDescById a (sortDescById xs) := rfl
      rw [this, ih hxs]
      rw [insertDescById_append_of_lt a xs.reverse
        (fun y hy => ha y (List.mem_reverse.mp hy))]
      simp

theorem foldlM_step_append (rs : List Rule) (r : Rule) :
    ∀ f g : Frame, rs.foldlM applyRuleStep f = .ok g →
      (rs ++ [r]).foldlM applyRuleStep f = applyRuleStep g r := by
  induction rs with
  | nil =>
      intro f g h
      have hfg : (Except.ok f : Except String Frame) = .ok g := h
      have : f = g := by injection hfg
      subst this
      show List.foldlM applyRuleStep f [r] = applyRuleStep f r
      show (applyRuleStep f r >>= fun x => List.foldlM applyRuleStep x []) = _
      cases applyRuleStep f r <;> rfl
  | cons a as ih =>
      intro f g h
      have hfold : List.foldlM applyRuleStep f (a :: as)
          = applyRuleStep f a >>= fun f' => as.foldlM applyRuleStep f' := rfl
      rw [hfold] at h
      rw [List.cons_append]
      show (applyRuleStep f a >>= fun f' => (as ++ [r]).foldlM applyRuleStep f') = _
      cases ha : applyRuleStep f a with
      | error e =>
          rw [ha] at h
          exact absurd h (by simp [Bind.bind, Except.bind])
      | ok f' =>
          rw [ha] at h
          show (as ++ [r]).foldlM applyRuleStep f' = _
          exact ih f' g h

/-- C4 counterexample: with two `equals` rules on field `X` created in ids
1 then 2 (rule 1: `"a" → "b"`, rule 2: `"a" → "c"`), the pipeline
(`load_mapping_rules` + `apply_mapping_rules`) rewrites the cell `"a"` to
`"c"` — rule 2 first — whereas ascending-id application (the order the claim
asserts) would produce `"b"`; the two orders disagree, so the pipeline does
not apply rules in ascending id order. -/
theorem mapping_rules_order_cex :
    apply_mapping_rules ⟨["X"], [[Cell.str "a"]]⟩
        (load_mapping_rules
          [⟨1, "X", "a", "b", "equals"⟩, ⟨2, "X", "a", "c", "equals"⟩])
      = .ok ⟨["X"], [[Cell.str "c"]]⟩ ∧
    apply_mapping_rules ⟨["X"], [[Cell.str "a"]]⟩
        [⟨1, "X", "a", "b", "equals"⟩, ⟨2, "X", "a", "c", "equals"⟩]
      = .ok ⟨["X"], [[Cell.str "b"]]⟩ ∧
    apply_mapping_rules ⟨["X"], [[Cell.str "a"]]⟩
        (load_mapping_rules
          [⟨1, "X", "a", "b", "equals"⟩, ⟨2, "X", "a", "c", "equals"⟩])
      ≠ apply_mapping_rules ⟨["X"], [[Cell.str "a"]]⟩
          [⟨1, "X", "a", "b", "equals"⟩, ⟨2, "X", "a", "c", "equals"⟩] := by
  refine ⟨by decide, by decide, by decide⟩

/-- C4 amended: the pipeline applies mapping rules in a fixed, reproducible
order, namely descending rule id (most recently created first —
`load_mapping_rules` reverses a table whose ids ascend in creation order),
and each rule is applied to the current state of the frame, so a
later-applied rule acts on the output of the rules applied before it
(`apply_mapping_rules` of `rs ++ [r]` is `apply_mapping_rules` of `rs`
followed by the single step for `r`); being a pure function of the rule
table and input frame, two runs on the same data produce identical output. -/
theorem mapping_rules_application_order (tbl : List Rule)
    (h : tbl.Pairwise (fun a b => a.id < b.id)) :
    load_mapping_rules tbl = tbl.reverse ∧
    ∀ (f : Frame) (rs : List Rule) (r : Rule) (g : Frame),
      apply_mapping_rules f rs = .ok g →
      apply_mapping_rules f (rs ++ [r]) = applyRuleStep g r := by
  constructor
  · exact sortDescById_of_ascending tbl h
  · intro f rs r g hg
    rw [apply_mapping_rules, if_neg (by simp)]
    apply foldlM_step_append rs r f g
    cases rs with
    | nil =>
        have : (Except.ok f : Except String Frame) = .ok g := by
          simpa [apply_mapping_rules] using hg
        exact this
    | cons a as =>
        rw [apply_mapping_rules, if_neg (by simp)] at hg
        exact hg

/-- Witness for `mapping_rules_application_order`: the two-rule table with
ids 1, 2 loads most-recent-first. -/
theorem mapping_rules_application_order_witness :
    load_mapping_rules [⟨1, "X", "a", "b", "equals"⟩, ⟨2, "X", "a", "c", "equals"⟩]
      = [⟨2, "X", "a", "c", "equals"⟩, ⟨1, "X", "a", "b", "equals"⟩] := by
  have h := (mapping_rules_application_order
    [⟨1, "X", "a", "b", "equals"⟩, ⟨2, "X", "a", "c", "equals"⟩] (by decide)).1
  simpa using h

/-! ### Rule-matching semantics (C3) -/

theorem ruleMask_iff_specMatch (r : Rule) (c : Cell) :
    ruleMask r c = true ↔ specMatch r c := by
  unfold ruleMask specMatch
  by_cases hm : r.match_type = "equals"
  · simp [hm]
  · simp [hm, containsCI]

/-- C3 counterexample: a `contains` rule with `source_text = "n"` on a null
cell.  The claim says null cells never match `contains`, so the cell should
stay null; the code stringifies the null to `"None"` first (`astype(str)`),
the case-insensitive search finds `"n"`, and the cell is overwritten with the
target text. -/
theorem rule_null_contains_match_cex :
    apply_mapping_rules ⟨["Поставщик"], [[Cell.null]]⟩
        [⟨1, "Поставщик", "n", "ЭЛТА", "contains"⟩]
      = .ok ⟨["Поставщик"], [[Cell.str "ЭЛТА"]]⟩ ∧
    ¬ (Cell.str "ЭЛТА" = Cell.null) :=
  ⟨by decide, by decide⟩

/-- C3 amended: for a rule whose field labels exactly one column, every cell
of that column is first stringified (`astype(str)`, so a null cell becomes
the string `"None"` and is *not* exempt from matching); with `equals` the
cell matches iff its stringified value equals `source_text` after stripping
and case-folding both sides, otherwise (`contains`) it matches iff
`source_text` — a regex pattern, here restricted to metacharacter-free
patterns — occurs case-insensitively in the stringified value; matched cells
are overwritten with `target_text` and all other cells are unchanged. -/
theorem rule_matching_semantics (f out : Frame) (r : Rule) (i : Nat)
    (hwf : f.wfb = true) (hi : indicesOf r.field f.cols = [i])
    (hlit : ¬ r.match_type = "equals" → regexFreePat r.source_text = true)
    (hok : apply_mapping_rules f [r] = .ok out) :
    out.cols = f.cols ∧ out.rows.length = f.rows.length ∧
    ∀ j, j < f.rows.length →
      (specMatch r (cellAt (f.rows.getD j []) i) →
        cellAt (out.rows.getD j []) i = Cell.str r.target_text) ∧
      (¬ specMatch r (cellAt (f.rows.getD j []) i) →
        cellAt (out.rows.getD j []) i = cellAt (f.rows.getD j []) i) ∧
      (∀ i', i' < f.cols.length → ¬ i' = i →
        cellAt (out.rows.getD j []) i' = cellAt (f.rows.getD j []) i') := by
  have hstep : applyRuleStep f r = .ok out := by
    rw [apply_mapping_rules, if_neg (by simp)] at hok
    have h1 : (applyRuleStep f r >>= fun x => List.foldlM applyRuleStep x [])
        = .ok out := hok
    cases hsr : applyRuleStep f r with
    | error e =>
        rw [hsr] at h1
        exact absurd h1 (by simp [Bind.bind, Except.bind])
    | ok v =>
        rw [hsr] at h1
        have hv : (Except.ok v : Except String Frame) = .ok out := h1
        rw [← hv]
  have hilt : i < f.cols.length ∧ f.cols.getD i "" = r.field := by
    have hmem : i ∈ indicesOf r.field f.cols := by rw [hi]; simp
    rcases mem_of_indicesOfAux r.field f.cols 0 i hmem with ⟨j, hj, hij, hg⟩
    have : i = j := by omega
    subst this
    exact ⟨hj, hg⟩
  rw [applyRuleStep, hi] at hstep
  have hout : out = ⟨f.cols, f.rows.map (fun row =>
      if ruleMask r (cellAt row i) then row.set i (Cell.str r.target_text) else row)⟩ := by
    injection hstep with h
    exact h.symm
  subst hout
  refine ⟨rfl, by simp, ?_⟩
  intro j hj
  have hrowlen : (f.rows.getD j []).length = f.cols.length := wfb_row_length f hwf j hj
  have hmap : (f.rows.map (fun row =>
      if ruleMask r (cellAt row i) then row.set i (Cell.str r.target_text) else row)).getD j []
      = (fun row => if ruleMask r (cellAt row i) then
          row.set i (Cell.str r.target_text) else row) (f.rows.getD j []) :=
    getD_map_of_lt _ f.rows j [] [] hj
  refine ⟨?_, ?_, ?_⟩
  · intro hmatch
    have hm : ruleMask r (cellAt (f.rows.getD j []) i) = true :=
      (ruleMask_iff_specMatch r _).mpr hmatch
    rw [hmap]
    show cellAt (if ruleMask r (cellAt (f.rows.getD j []) i) = true then
        (f.rows.getD j []).set i (Cell.str r.target_text) else f.rows.getD j []) i
      = Cell.str r.target_text
    rw [if_pos hm]
    exact getD_set_self_of_lt _ i _ Cell.null (by omega)
  · intro hmatch
    have hm : ¬ (ruleMask r (cellAt (f.rows.getD j []) i) = true) :=
      fun hc => hmatch ((ruleMask_iff_specMatch r _).mp hc)
    rw [hmap]
    show cellAt (if ruleMask r (cellAt (f.rows.getD j []) i) = true then
        (f.rows.getD j []).set i (Cell.str r.target_text) else f.rows.getD j []) i
      = cellAt (f.rows.getD j []) i
    rw [if_neg hm]
  · intro i' hi' hne
    rw [hmap]
    show cellAt (if ruleMask r (cellAt (f.rows.getD j []) i) = true then
        (f.rows.getD j []).set i (Cell.str r.target_text) else f.rows.getD j []) i'
      = cellAt (f.rows.getD j []) i'
    by_cases hm : ruleMask r (cellAt (f.rows.getD j []) i) = true
    · rw [if_pos hm]
      exact getD_set_of_ne _ i i' _ Cell.null (fun he => hne (by omega))
    · rw [if_neg hm]

/-- Witness for `rule_matching_semantics`: an `equals` rule canonicalizing
`" сателлит экспресс "` (matched case-insensitively after stripping) while
leaving `"прочее"` untouched, and a `contains` rule whose pattern `"n"`
matches a null cell through its stringification `"None"`. -/
theorem rule_matching_semantics_witness :
    cellAt (((⟨["Наименование_товара_клиента"],
        [[Cell.str "Сателлит Экспресс"], [Cell.str "прочее"]]⟩ : Frame)).rows.getD 0 []) 0
      = Cell.str "Сателлит Экспресс" ∧
    cellAt (((⟨["Наименование_товара_клиента"],
        [[Cell.str "Сателлит Экспресс"], [Cell.str "прочее"]]⟩ : Frame)).rows.getD 1 []) 0
      = Cell.str "прочее" ∧
    cellAt (((⟨["Поставщик"], [[Cell.str "ЭЛТА"]]⟩ : Frame)).rows.getD 0 []) 0
      = Cell.str "ЭЛТА" := by
  have h1 := rule_matching_semantics
    ⟨["Наименование_товара_клиента"], [[Cell.str " сателлит экспресс "], [Cell.str "прочее"]]⟩
    ⟨["Наименование_товара_клиента"], [[Cell.str "Сателлит Экспресс"], [Cell.str "прочее"]]⟩
    ⟨1, "Наименование_товара_клиента", "Сателлит Экспресс", "Сателлит Экспресс", "equals"⟩
    0 (by decide) (by decide) (fun h => absurd rfl h) (by decide)
  have h2 := rule_matching_semantics
    ⟨["Поставщик"], [[Cell.null]]⟩ ⟨["Поставщик"], [[Cell.str "ЭЛТА"]]⟩
    ⟨2, "Поставщик", "n", "ЭЛТА", "contains"⟩
    0 (by decide) (by decide) (fun _ => by decide) (by decide)
  refine ⟨(h1.2.2 0 (by decide)).1 ?_, (h1.2.2 1 (by decide)).2.1 ?_, (h2.2.2 0 (by decide)).1 ?_⟩
  · show pyLower (pyStrip (pyStr (Cell.str " сателлит экспресс ")))
      = pyLower (pyStrip "Сателлит Экспресс")
    decide
  · show ¬ pyLower (pyStrip (pyStr (Cell.str "прочее")))
      = pyLower (pyStrip "Сателлит Экспресс")
    decide
  · show (pyLower "n").data <:+: (pyLower (pyStr Cell.null)).data
    decide

/-! ### Type-coercion semantics (C2) -/

theorem mapRowsE_spec (g : Cell → Except String Cell) (i : Nat) :
    ∀ rows rows', mapRowsE g i rows = .ok rows' →
      rows'.length = rows.length ∧
      ∀ j, j < rows.length →
        ∃ v, g (cellAt (rows.getD j []) i) = .ok v ∧
          rows'.getD j [] = (rows.getD j []).set i v := by
  intro rows
  induction rows with
  | nil =>
      intro rows' h
      have h0 : (Except.ok ([] : List (List Cell)) : Except String _) = .ok rows' := h
      injection h0 with h'
      subst h'
      exact ⟨rfl, by intro j hj; simp at hj⟩
  | cons row rest ih =>
      intro rows' h
      rw [mapRowsE] at h
      cases hg : g (cellAt row i) with
      | error e => rw [hg] at h; exact Except.noConfusion h
      | ok v =>
          rw [hg] at h
          cases hr : mapRowsE g i rest with
          | error e => rw [hr] at h; exact Except.noConfusion h
          | ok rest' =>
              rw [hr] at h
              have h2 : (Except.ok (row.set i v :: rest') : Except String _) = .ok rows' := h
              injection h2 with h'
              subst h'
              rcases ih rest' hr with ⟨hlen, hpt⟩
              refine ⟨by simp [hlen], ?_⟩
              intro j hj
              cases j with
              | zero => exact ⟨v, by simpa using hg, by simp⟩
              | succ j =>
                  rcases hpt j (by simpa using hj) with ⟨w, hw, he⟩
                  exact ⟨w, by simpa using hw, by simpa using he⟩

theorem mapRowsE_all_lengths (g : Cell → Except String Cell) (i : Nat) (L : Nat) :
    ∀ rows rows', mapRowsE g i rows = .ok rows' →
      rows.all (fun r => r.length = L) = true →
      rows'.all (fun r => r.length = L) = true := by
  intro rows
  induction rows with
  | nil =>
      intro rows' h _
      have h0 : (Except.ok ([] : List (List Cell)) : Except String _) = .ok rows' := h
      injection h0 with h'
      subst h'
      rfl
  | cons row rest ih =>
      intro rows' h hall
      rw [mapRowsE] at h
      cases hg : g (cellAt row i) with
      | error e => rw [hg] at h; exact Except.noConfusion h
      | ok v =>
          rw [hg] at h
          cases hr : mapRowsE g i rest with
          | error e => rw [hr] at h; exact Except.noConfusion h
          | ok rest' =>
              rw [hr] at h
              have h2 : (Except.ok (row.set i v :: rest') : Except String _) = .ok rows' := h
              injection h2 with h'
              subst h'
              simp only [List.all_cons, Bool.and_eq_true] at hall ⊢
              exact ⟨by simpa [List.length_set] using hall.1, ih rest' hr hall.2⟩

theorem coerceColE_spec (g : Cell → Except String Cell) (c : String) (f out : Frame)
    (hnd : f.cols.Nodup) (hwf : f.wfb = true)
    (h : coerceColE g c f = .ok out) :
    out.cols = f.cols ∧ out.wfb = true ∧ out.rows.length = f.rows.length ∧
    ∀ j, j < f.rows.length → ∀ i, i < f.cols.length →
      (f.cols.getD i "" = c →
        ∃ v, g (cellAt (f.rows.getD j []) i) = .ok v ∧
          cellAt (out.rows.getD j []) i = v) ∧
      (¬ f.cols.getD i "" = c →
        cellAt (out.rows.getD j []) i = cellAt (f.rows.getD j []) i) := by
  rw [coerceColE] at h
  cases hio : indicesOf c f.cols with
  | nil =>
      rw [hio] at h
      have h0 : (Except.ok f : Except String Frame) = .ok out := h
      injection h0 with h'
      subst h'
      refine ⟨rfl, hwf, rfl, ?_⟩
      intro j hj i hi
      refine ⟨?_, fun _ => rfl⟩
      intro hc
      exfalso
      have hmem : c ∈ f.cols := hc ▸ getD_mem_of_lt f.cols i "" hi
      rcases indicesOf_singleton_of_nodup c f.cols hnd hmem with ⟨j', _, _, he⟩
      rw [hio] at he
      exact List.noConfusion he
  | cons i0 tail =>
      cases tail with
      | cons i2 t2 =>
          rw [hio] at h
          exact Except.noConfusion h
      | nil =>
          rw [hio] at h
          have h' : Except.map (fun rows => (⟨f.cols, rows⟩ : Frame))
              (mapRowsE g i0 f.rows) = .ok out := h
          cases hm : mapRowsE g i0 f.rows with
          | error e =>
              rw [hm] at h'
              exact Except.noConfusion h'
          | ok rows' =>
              rw [hm] at h'
              have h2 : (Except.ok (⟨f.cols, rows'⟩ : Frame) : Except String Frame)
                  = .ok out := h'
              injection h2 with h'
              subst h'
              rcases mapRowsE_spec g i0 f.rows rows' hm with ⟨hlen, hpt⟩
              have hifacts : i0 < f.cols.length ∧ f.cols.getD i0 "" = c := by
                have hmem : i0 ∈ indicesOf c f.cols := by rw [hio]; simp
                rcases mem_of_indicesOfAux c f.cols 0 i0 hmem with ⟨j', hj', hij', hg'⟩
                have : i0 = j' := by omega
                subst this
                exact ⟨hj', hg'⟩
              refine ⟨rfl, ?_, by simpa using hlen, ?_⟩
              · rw [Frame.wfb]
                rw [Frame.wfb] at hwf
                exact mapRowsE_all_lengths g i0 f.cols.length f.rows rows' hm hwf
              · intro j hj i hi
                constructor
                · intro hc
                  have hii0 : i = i0 :=
                    nodup_getD_inj f.cols hnd i i0 hi hifacts.1
                      (by rw [hc, hifacts.2])
                  subst hii0
                  rcases hpt j hj with ⟨v, hv, he⟩
                  refine ⟨v, hv, ?_⟩
                  show cellAt (rows'.getD j []) i = v
                  rw [he]
                  exact getD_set_self_of_lt _ i _ Cell.null
                    (by rw [wfb_row_length f hwf j hj]; exact hi)
                · intro hc
                  have hne : ¬ i = i0 := fun he => hc (he ▸ hifacts.2)
                  rcases hpt j hj with ⟨v, _, he⟩
                  show cellAt (rows'.getD j []) i = cellAt (f.rows.getD j []) i
                  rw [he]
                  exact getD_set_of_ne _ i0 i _ Cell.null (fun h0 => hne h0.symm)

theorem coerceFold_spec (g : Cell → Except String Cell) :
    ∀ (L : List String), L.Nodup →
    ∀ (f out : Frame), f.cols.Nodup → f.wfb = true →
      L.foldlM (fun acc c => coerceColE g c acc) f = .ok out →
      out.cols = f.cols ∧ out.wfb = true ∧ out.rows.length = f.rows.length ∧
      ∀ j, j < f.rows.length → ∀ i, i < f.cols.length →
        (f.cols.getD i "" ∈ L →
          ∃ v, g (cellAt (f.rows.getD j []) i) = .ok v ∧
            cellAt (out.rows.getD j []) i = v) ∧
        (¬ f.cols.getD i "" ∈ L →
          cellAt (out.rows.getD j []) i = cellAt (f.rows.getD j []) i) := by
  intro L
  induction L with
  | nil =>
      intro _ f out hnd hwf h
      have h0 : (Except.ok f : Except String Frame) = .ok out := h
      injection h0 with h'
      subst h'
      refine ⟨rfl, hwf, rfl, ?_⟩
      intro j hj i hi
      exact ⟨fun hmem => absurd hmem (by simp), fun _ => rfl⟩
  | cons c L ih =>
      intro hndL f out hnd hwf h
      rcases List.nodup_cons.mp hndL with ⟨hcL, hndL'⟩
      have hfold : List.foldlM (fun acc c => coerceColE g c acc) f (c :: L)
          = coerceColE g c f >>= fun f1 =>
              List.foldlM (fun acc c => coerceColE g c acc) f1 L := rfl
      rw [hfold] at h
      cases h1 : coerceColE g c f with
      | error e => rw [h1] at h; exact Except.noConfusion h
      | ok f1 =>
          rw [h1] at h
          have h2 : List.foldlM (fun acc c => coerceColE g c acc) f1 L = .ok out := h
          rcases coerceColE_spec g c f f1 hnd hwf h1 with ⟨hc1, hw1, hl1, hp1⟩
          rcases ih hndL' f1 out (by rw [hc1]; exact hnd) hw1 h2 with ⟨hc2, hw2, hl2, hp2⟩
          refine ⟨hc2.trans hc1, hw2, hl2.trans hl1, ?_⟩
          intro j hj i hi
          have hj1 : j < f1.rows.length := by rw [hl1]; exact hj
          have hi1 : i < f1.cols.length := by rw [hc1]; exact hi
          have hgd1 : f1.cols.getD i "" = f.cols.getD i "" := by rw [hc1]
          constructor
          · intro hmem
            rcases List.mem_cons.mp hmem with hceq | hmemL
            · rcases (hp1 j hj i hi).1 hceq with ⟨v, hv, he⟩
              refine ⟨v, hv, ?_⟩
              have huntouched : cellAt (out.rows.getD j []) i
                  = cellAt (f1.rows.getD j []) i :=
                (hp2 j hj1 i hi1).2 (by rw [hgd1, hceq]; exact hcL)
              rw [huntouched, he]
            · have hne : ¬ f.cols.getD i "" = c := fun he => hcL (he ▸ hmemL)
              rcases (hp2 j hj1 i hi1).1 (by rw [hgd1]; exact hmemL) with ⟨v, hv, he⟩
              have heq1 : cellAt (f1.rows.getD j []) i = cellAt (f.rows.getD j []) i :=
                (hp1 j hj i hi).2 hne
              rw [heq1] at hv
              exact ⟨v, hv, he⟩
          · intro hmem
            have hnc : ¬ f.cols.getD i "" = c := fun he => hmem (by rw [he]; simp)
            have hnL : ¬ f.cols.getD i "" ∈ L :=
              fun hm => hmem (List.mem_cons_of_mem c hm)
            have e1 := (hp1 j hj i hi).2 hnc
            have e2 := (hp2 j hj1 i hi1).2 (by rw [hgd1]; exact hnL)
            rw [e2, e1]

theorem coerce_types_spec (f out : Frame) (hnd : f.cols.Nodup) (hwf : f.wfb = true)
    (h : coerce_types f = .ok out) :
    out.cols = f.cols ∧ out.wfb = true ∧ out.rows.length = f.rows.length ∧
    ∀ j, j < f.rows.length → ∀ i, i < f.cols.length →
      (f.cols.getD i "" ∈ INT_ID_FIELDS →
        ∃ v, coerceIdCellE (cellAt (f.rows.getD j []) i) = .ok v ∧
          cellAt (out.rows.getD j []) i = v) ∧
      (f.cols.getD i "" ∈ DEFAULT_NUMERIC_FIELDS →
        cellAt (out.rows.getD j []) i = coerceNumCell (cellAt (f.rows.getD j []) i)) ∧
      (¬ f.cols.getD i "" ∈ INT_ID_FIELDS → ¬ f.cols.getD i "" ∈ DEFAULT_NUMERIC_FIELDS →
        cellAt (out.rows.getD j []) i = cellAt (f.rows.getD j []) i) := by
  have hdisj : ∀ c ∈ INT_ID_FIELDS, ¬ c ∈ DEFAULT_NUMERIC_FIELDS := by decide
  rw [coerce_types] at h
  cases h1 : List.foldlM (fun acc c => coerceColE coerceIdCellE c acc) f INT_ID_FIELDS with
  | error e => rw [h1] at h; exact Except.noConfusion h
  | ok f1 =>
      rw [h1] at h
      have h2 : List.foldlM
          (fun acc c => coerceColE (fun v => .ok (coerceNumCell v)) c acc)
          f1 DEFAULT_NUMERIC_FIELDS = .ok out := h
      rcases coerceFold_spec coerceIdCellE INT_ID_FIELDS (by decide) f f1 hnd hwf h1
        with ⟨hc1, hw1, hl1, hp1⟩
      rcases coerceFold_spec (fun v => .ok (coerceNumCell v)) DEFAULT_NUMERIC_FIELDS
        (by decide) f1 out (by rw [hc1]; exact hnd) hw1 h2 with ⟨hc2, hw2, hl2, hp2⟩
      refine ⟨hc2.trans hc1, hw2, hl2.trans hl1, ?_⟩
      intro j hj i hi
      have hj1 : j < f1.rows.length := by rw [hl1]; exact hj
      have hi1 : i < f1.cols.length := by rw [hc1]; exact hi
      have hgd1 : f1.cols.getD i "" = f.cols.getD i "" := by rw [hc1]
      refine ⟨?_, ?_, ?_⟩
      · intro hid
        rcases (hp1 j hj i hi).1 hid with ⟨v, hv, he⟩
        refine ⟨v, hv, ?_⟩
        have huntouched : cellAt (out.rows.getD j []) i
            = cellAt (f1.rows.getD j []) i :=
          (hp2 j hj1 i hi1).2 (by rw [hgd1]; exact hdisj _ hid)
        rw [huntouched, he]
      · intro hnum
        have hnid : ¬ f.cols.getD i "" ∈ INT_ID_FIELDS :=
          fun hid => hdisj _ hid hnum
        have heq1 : cellAt (f1.rows.getD j []) i = cellAt (f.rows.getD j []) i :=
          (hp1 j hj i hi).2 hnid
        rcases (hp2 j hj1 i hi1).1 (by rw [hgd1]; exact hnum) with ⟨v, hv, he⟩
        have hv' : coerceNumCell (cellAt (f1.rows.getD j []) i) = v := by
          injection hv
        rw [he, ← hv', heq1]
      · intro hnid hnnum
        have e1 := (hp1 j hj i hi).2 hnid
        have e2 := (hp2 j hj1 i hi1).2 (by rw [hgd1]; exact hnnum)
        rw [e2, e1]

/-- C2: type coercion distinguishes null from zero by field class.  In the
frame produced by `coerce_types`, a cell of an identity column
(`Код_клиента`, `Артикул_Элта`, `Год`, `Месяц`) that was null or held an
unparseable string is null, while a cell of a declared numeric business
column (`DEFAULT_NUMERIC_FIELDS`) that was null (missing) or held an
unparseable string is `0`. -/
theorem coerce_null_vs_zero (f out : Frame) (c : String) (i j : Nat)
    (hnd : f.cols.Nodup) (hwf : f.wfb = true)
    (hok : coerce_types f = .ok out)
    (hi : i < f.cols.length) (hc : f.cols.getD i "" = c) (hj : j < f.rows.length)
    (hbad : cellAt (f.rows.getD j []) i = Cell.null ∨
      ∃ s, cellAt (f.rows.getD j []) i = Cell.str s ∧ parseNum s = none) :
    (c ∈ INT_ID_FIELDS → cellAt (out.rows.getD j []) i = Cell.null) ∧
    (c ∈ DEFAULT_NUMERIC_FIELDS → cellAt (out.rows.getD j []) i = Cell.real 0) := by
  rcases coerce_types_spec f out hnd hwf hok with ⟨_, _, _, hp⟩
  have hcell : coerceIdCellE (cellAt (f.rows.getD j []) i) = .ok Cell.null ∧
      coerceNumCell (cellAt (f.rows.getD j []) i) = Cell.real 0 := by
    rcases hbad with hnull | ⟨s, hs, hps⟩
    · rw [hnull]
      exact ⟨rfl, rfl⟩
    · rw [hs]
      exact ⟨by simp [coerceIdCellE, hps], by simp [coerceNumCell, hps]⟩
  constructor
  · intro hcid
    rcases (hp j hj i hi).1 (by rw [hc]; exact hcid) with ⟨v, hv, he⟩
    rw [hcell.1] at hv
    have hv' : Cell.null = v := by injection hv
    rw [he, ← hv']
  · intro hcnum
    rw [(hp j hj i hi).2.1 (by rw [hc]; exact hcnum), hcell.2]

/-- Witness for `coerce_null_vs_zero`: the frame with one row holding the
unparseable string `"abc"` in both `Год` (identity) and `Закупки_колво`
(numeric) coerces to null in the former and `0` in the latter. -/
theorem coerce_null_vs_zero_witness :
    cellAt (((⟨["Год", "Закупки_колво"], [[Cell.null, Cell.real 0]]⟩ : Frame)).rows.getD 0 []) 0
      = Cell.null ∧
    cellAt (((⟨["Год", "Закупки_колво"], [[Cell.null, Cell.real 0]]⟩ : Frame)).rows.getD 0 []) 1
      = Cell.real 0 := by
  have h1 := coerce_null_vs_zero
    ⟨["Год", "Закупки_колво"], [[Cell.str "abc", Cell.str "abc"]]⟩
    ⟨["Год", "Закупки_колво"], [[Cell.null, Cell.real 0]]⟩
    "Год" 0 0 (by decide) (by decide) (by decide) (by decide) (by decide) (by decide)
    (Or.inr ⟨"abc", by decide, by decide⟩)
  have h2 := coerce_null_vs_zero
    ⟨["Год", "Закупки_колво"], [[Cell.str "abc", Cell.str "abc"]]⟩
    ⟨["Год", "Закупки_колво"], [[Cell.null, Cell.real 0]]⟩
    "Закупки_колво" 1 0 (by decide) (by decide) (by decide) (by decide) (by decide) (by decide)
    (Or.inr ⟨"abc", by decide, by decide⟩)
  exact ⟨h1.1 (by decide), h2.2 (by decide)⟩

/-! ### Totals-row semantics (C5) -/

/-- C5 counterexample: a frame with the declared numeric column
`Закупки_колво` but no `Итого` column.  `compute_totals_row` appends a
synthetic row with the correct sum, but the `"Итого"` entry of the row dict
is aligned away (it is not a column), so the sentinel `"ИТОГО"` appears
nowhere in the output — contradicting the claim that the reserved `Итого`
field of the synthetic row holds the sentinel for every input frame with a
declared numeric field. -/
theorem totals_sentinel_missing_cex :
    compute_totals_row ⟨["Закупки_колво"], [[Cell.real 1]]⟩
      = ⟨["Закупки_колво"], [[Cell.real 1], [Cell.real 1]]⟩ ∧
    ¬ "Итого" ∈ (compute_totals_row ⟨["Закупки_колво"], [[Cell.real 1]]⟩).cols ∧
    ∀ r ∈ (compute_totals_row ⟨["Закупки_колво"], [[Cell.real 1]]⟩).rows,
      ¬ Cell.str "ИТОГО" ∈ r :=
  ⟨by decide, by decide, by decide⟩

/-- C5 amended: on a frame with unique column labels containing at least one
declared numeric field, `compute_totals_row` appends exactly one synthetic
row: each declared numeric column whose cells are numbers/nulls holds the sum
of the column (nulls contributing nothing, and `0` on a zero-row frame);
the reserved `Итого` column — when the frame has it — holds the sentinel
`"ИТОГО"`; every other column is blank.  (Without an `Итого` column the
sentinel key of the row dict is silently dropped.) -/
theorem compute_totals_semantics (f : Frame) (hnd : f.cols.Nodup)
    (hnum : ∃ c ∈ DEFAULT_NUMERIC_FIELDS, c ∈ f.cols) :
    (compute_totals_row f).cols = f.cols ∧
    ∃ tr, (compute_totals_row f).rows = f.rows ++ [tr] ∧ tr.length = f.cols.length ∧
      ∀ i, i < f.cols.length →
        (f.cols.getD i "" ∈ DEFAULT_NUMERIC_FIELDS →
          ((∀ row ∈ f.rows, cellIsNumOrNull (cellAt row i) = true) →
            cellAt tr i =
              Cell.real ((f.rows.map (fun row => cellNumVal (cellAt row i))).sum)) ∧
          (f.rows = [] → cellAt tr i = Cell.real 0)) ∧
        (¬ f.cols.getD i "" ∈ DEFAULT_NUMERIC_FIELDS →
          (f.cols.getD i "" = "Итого" → cellAt tr i = Cell.str "ИТОГО") ∧
          (¬ f.cols.getD i "" = "Итого" → cellAt tr i = Cell.str "")) := by
  rcases hnum with ⟨c0, hc0n, hc0f⟩
  have hne : (DEFAULT_NUMERIC_FIELDS.filter (fun c => c ∈ f.cols)).isEmpty = false := by
    have : c0 ∈ DEFAULT_NUMERIC_FIELDS.filter (fun c => c ∈ f.cols) :=
      List.mem_filter.mpr ⟨hc0n, by simpa using hc0f⟩
    cases he : DEFAULT_NUMERIC_FIELDS.filter (fun c => c ∈ f.cols) with
    | nil => rw [he] at this; exact absurd this (by simp)
    | cons a t => rfl
  have hcomp : compute_totals_row f =
      ⟨f.cols, f.rows ++ [f.cols.map (fun c =>
        if c ∈ DEFAULT_NUMERIC_FIELDS.filter (fun c => c ∈ f.cols) then
          Cell.real (match colCells f c with
            | some cells => columnSum cells
            | none => 0)
        else if c = "Итого" then Cell.str "ИТОГО"
        else Cell.str "")]⟩ := by
    rw [compute_totals_row]
    simp only [hne]
    rfl
  rw [hcomp]
  refine ⟨rfl, _, rfl, by simp, ?_⟩
  intro i hi
  have hget : (f.cols.map (fun c =>
      if c ∈ DEFAULT_NUMERIC_FIELDS.filter (fun c => c ∈ f.cols) then
        Cell.real (match colCells f c with
          | some cells => columnSum cells
          | none => 0)
      else if c = "Итого" then Cell.str "ИТОГО"
      else Cell.str "")).getD i Cell.null =
      (fun c =>
        if c ∈ DEFAULT_NUMERIC_FIELDS.filter (fun c => c ∈ f.cols) then
          Cell.real (match colCells f c with
            | some cells => columnSum cells
            | none => 0)
        else if c = "Итого" then Cell.str "ИТОГО"
        else Cell.str "") (f.cols.getD i "") := getD_map_of_lt _ f.cols i "" Cell.null hi
  constructor
  · intro hnumf
    have hmemf : f.cols.getD i "" ∈ f.cols := getD_mem_of_lt f.cols i "" hi
    have hfilt : f.cols.getD i "" ∈ DEFAULT_NUMERIC_FIELDS.filter (fun c => c ∈ f.cols) :=
      List.mem_filter.mpr ⟨hnumf, by simpa using hmemf⟩
    have hidx : indicesOf (f.cols.getD i "") f.cols = [i] :=
      indicesOf_eq_singleton_self f.cols hnd i hi
    have hcolc : colCells f (f.cols.getD i "") =
        some (f.rows.map (fun r => cellAt r i)) := by
      rw [colCells, hidx]
    have hcell : cellAt (f.cols.map (fun c =>
        if c ∈ DEFAULT_NUMERIC_FIELDS.filter (fun c => c ∈ f.cols) then
          Cell.real (match colCells f c with
            | some cells => columnSum cells
            | none => 0)
        else if c = "Итого" then Cell.str "ИТОГО"
        else Cell.str "")) i
        = Cell.real (columnSum (f.rows.map (fun r => cellAt r i))) := by
      show (f.cols.map _).getD i Cell.null = _
      rw [hget]
      show (if (f.cols.getD i "") ∈ _ then _ else _) = _
      rw [if_pos hfilt, hcolc]
    constructor
    · intro hallnum
      rw [hcell]
      have hall : (f.rows.map (fun r => cellAt r i)).all cellIsNumOrNull = true := by
        apply List.all_eq_true.mpr
        intro x hx
        rcases List.mem_map.mp hx with ⟨r, hr, hrx⟩
        rw [← hrx]
        exact hallnum r hr
      rw [columnSum, if_pos hall, sumQ_eq_sum, List.map_map]
      rfl
    · intro hempty
      rw [hcell, hempty]
      rfl
  · intro hnn
    have hnfilt : ¬ f.cols.getD i "" ∈
        DEFAULT_NUMERIC_FIELDS.filter (fun c => c ∈ f.cols) :=
      fun hm => hnn (List.mem_filter.mp hm).1
    constructor
    · intro hit
      show (f.cols.map _).getD i Cell.null = _
      rw [hget]
      show (if (f.cols.getD i "") ∈ _ then _ else _) = _
      rw [if_neg hnfilt, if_pos hit]
    · intro hit
      show (f.cols.map _).getD i Cell.null = _
      rw [hget]
      show (if (f.cols.getD i "") ∈ _ then _ else _) = _
      rw [if_neg hnfilt, if_neg hit]

/-- Witness for `compute_totals_semantics` on a frame with the `Итого`
column, the numeric column `Закупки_колво` (one float row, one `Int64` row)
and the text column `Сеть`: exactly one row is appended, holding the column
sum, the sentinel and a blank. -/
theorem compute_totals_semantics_witness :
    ∃ tr, (compute_totals_row ⟨["Итого", "Закупки_колво", "Сеть"],
        [[Cell.str "", Cell.real 2, Cell.str "a"], [Cell.null, Cell.int 3, Cell.str "b"]]⟩).rows
      = [[Cell.str "", Cell.real 2, Cell.str "a"], [Cell.null, Cell.int 3, Cell.str "b"]] ++ [tr] ∧
      cellAt tr 0 = Cell.str "ИТОГО" ∧ cellAt tr 2 = Cell.str "" ∧
      cellAt tr 1 = Cell.real
        (([[Cell.str "", Cell.real 2, Cell.str "a"], [Cell.null, Cell.int 3, Cell.str "b"]].map
          (fun row => cellNumVal (cellAt row 1))).sum) := by
  obtain ⟨hcols, tr, hrows, hlen, hcells⟩ := compute_totals_semantics
    ⟨["Итого", "Закупки_колво", "Сеть"],
      [[Cell.str "", Cell.real 2, Cell.str "a"], [Cell.null, Cell.int 3, Cell.str "b"]]⟩
    (by decide) (by decide)
  refine ⟨tr, hrows, ?_, ?_, ?_⟩
  · exact ((hcells 0 (by decide)).2 (by decide)).1 (by decide)
  · exact ((hcells 2 (by decide)).2 (by decide)).2 (by decide)
  · exact ((hcells 1 (by decide)).1 (by decide)).1 (by decide)

/-! ### Normalization-pipeline shape (C1) -/

theorem applyRuleStep_cols_wfb (f g : Frame) (r : Rule)
    (h : applyRuleStep f r = .ok g) :
    g.cols = f.cols ∧ (f.wfb = true → g.wfb = true) := by
  rw [applyRuleStep] at h
  cases hio : indicesOf r.field f.cols with
  | nil =>
      rw [hio] at h
      have h0 : (Except.ok f : Except String Frame) = .ok g := h
      injection h0 with h'
      subst h'
      exact ⟨rfl, id⟩
  | cons i t =>
      cases t with
      | cons i2 t2 =>
          rw [hio] at h
          exact Except.noConfusion h
      | nil =>
          rw [hio] at h
          have h0 : (Except.ok (⟨f.cols, f.rows.map (fun row =>
              if ruleMask r (cellAt row i) then
                row.set i (Cell.str r.target_text) else row)⟩ : Frame)
              : Except String Frame) = .ok g := h
          injection h0 with h'
          subst h'
          refine ⟨rfl, ?_⟩
          intro hwf
          rw [Frame.wfb] at hwf ⊢
          apply List.all_eq_true.mpr
          intro x hx
          rcases List.mem_map.mp hx with ⟨row, hrow, hxr⟩
          have hlen := List.all_eq_true.mp hwf row hrow
          simp only [decide_eq_true_eq] at hlen ⊢
          rw [← hxr]
          by_cases hm : ruleMask r (cellAt row i) = true
          · rw [if_pos hm, List.length_set]
            exact hlen
          · rw [if_neg hm]
            exact hlen

theorem foldlM_rules_cols_wfb (rs : List Rule) :
    ∀ f g : Frame, rs.foldlM applyRuleStep f = .ok g →
      g.cols = f.cols ∧ (f.wfb = true → g.wfb = true) := by
  induction rs with
  | nil =>
      intro f g h
      have h0 : (Except.ok f : Except String Frame) = .ok g := h
      injection h0 with h'
      subst h'
      exact ⟨rfl, id⟩
  | cons a as ih =>
      intro f g h
      have hfold : List.foldlM applyRuleStep f (a :: as)
          = applyRuleStep f a >>= fun x => as.foldlM applyRuleStep x := rfl
      rw [hfold] at h
      cases ha : applyRuleStep f a with
      | error e => rw [ha] at h; exact Except.noConfusion h
      | ok f1 =>
          rw [ha] at h
          have h1 : as.foldlM applyRuleStep f1 = .ok g := h
          rcases applyRuleStep_cols_wfb f f1 a ha with ⟨hc, hw⟩
          rcases ih f1 g h1 with ⟨hc2, hw2⟩
          exact ⟨hc2.trans hc, fun hwf => hw2 (hw hwf)⟩

theorem apply_mapping_rules_cols_wfb (rs : List Rule) (f g : Frame)
    (h : apply_mapping_rules f rs = .ok g) :
    g.cols = f.cols ∧ (f.wfb = true → g.wfb = true) := by
  cases rs with
  | nil =>
      have h0 : (Except.ok f : Except String Frame) = .ok g := h
      injection h0 with h'
      subst h'
      exact ⟨rfl, id⟩
  | cons a as =>
      rw [apply_mapping_rules, if_neg (by simp)] at h
      exact foldlM_rules_cols_wfb (a :: as) f g h

theorem missingFields_not_mem (reg : List String) :
    ∀ cols, ∀ x ∈ missingFields cols reg, ¬ x ∈ cols := by
  induction reg with
  | nil => intro cols x hx; rw [missingFields] at hx; exact absurd hx (by simp)
  | cons fld rest ih =>
      intro cols x hx
      rw [missingFields] at hx
      by_cases hm : fld ∈ cols
      · rw [if_pos hm] at hx
        exact ih cols x hx
      · rw [if_neg hm] at hx
        rcases List.mem_cons.mp hx with he | ht
        · subst he; exact hm
        · exact fun hc => ih (cols ++ [fld]) x ht (List.mem_append_left _ hc)

theorem missingFields_nodup (reg : List String) :
    ∀ cols, (missingFields cols reg).Nodup := by
  induction reg with
  | nil => intro cols; rw [missingFields]; exact List.nodup_nil
  | cons fld rest ih =>
      intro cols
      rw [missingFields]
      by_cases hm : fld ∈ cols
      · rw [if_pos hm]; exact ih cols
      · rw [if_neg hm]
        apply List.nodup_cons.mpr
        refine ⟨?_, ih (cols ++ [fld])⟩
        intro hmem
        exact missingFields_not_mem rest (cols ++ [fld]) fld hmem
          (List.mem_append_right _ (by simp))

theorem mem_missingFields (fld : String) (reg : List String) :
    ∀ cols, fld ∈ reg → ¬ fld ∈ cols → fld ∈ missingFields cols reg := by
  induction reg with
  | nil => intro cols h; exact absurd h (by simp)
  | cons f0 rest ih =>
      intro cols hmem hnc
      rw [missingFields]
      by_cases hm : f0 ∈ cols
      · rw [if_pos hm]
        rcases List.mem_cons.mp hmem with he | ht
        · subst he; exact absurd hm hnc
        · exact ih cols ht hnc
      · rw [if_neg hm]
        by_cases hf : fld = f0
        · subst hf; simp
        · rcases List.mem_cons.mp hmem with he | ht
          · exact absurd he hf
          · refine List.mem_cons_of_mem _ (ih (cols ++ [f0]) ht ?_)
            intro hc
            rcases List.mem_append.mp hc with hc1 | hc2
            · exact hnc hc1
            · exact hf (by simpa using hc2)

theorem completeRegistry_eq (reg : List String) :
    ∀ f : Frame, completeRegistry f reg =
      ⟨f.cols ++ missingFields f.cols reg,
       f.rows.map (fun r =>
         r ++ List.replicate (missingFields f.cols reg).length Cell.null)⟩ := by
  induction reg with
  | nil =>
      intro f
      rw [missingFields]
      show f = _
      cases f with
      | mk cols rows => simp
  | cons fld rest ih =>
      intro f
      have hstep : completeRegistry f (fld :: rest)
          = completeRegistry (if fld ∈ f.cols then f else addNullCol f fld) rest := rfl
      rw [hstep, missingFields]
      by_cases hm : fld ∈ f.cols
      · rw [if_pos hm, if_pos hm]
        exact ih f
      · rw [if_neg hm, if_neg hm, ih (addNullCol f fld)]
        rw [addNullCol]
        have hcols : (f.cols ++ [fld]) ++ missingFields (f.cols ++ [fld]) rest
            = f.cols ++ fld :: missingFields (f.cols ++ [fld]) rest := by
          rw [List.append_assoc]
          rfl
        have hrows : (f.rows.map (fun r => r ++ [Cell.null])).map
              (fun r => r ++ List.replicate
                (missingFields (f.cols ++ [fld]) rest).length Cell.null)
            = f.rows.map (fun r => r ++ List.replicate
                ((fld :: missingFields (f.cols ++ [fld]) rest).length) Cell.null) := by
          rw [List.map_map]
          apply List.map_congr_left
          intro r _
          show (r ++ [Cell.null]) ++ _ = _
          rw [List.append_assoc, List.length_cons, List.replicate_succ]
          rfl
        rw [hcols, hrows]

theorem completeRegistry_cols (f : Frame) (reg : List String) :
    (completeRegistry f reg).cols = f.cols ++ missingFields f.cols reg := by
  rw [completeRegistry_eq reg f]

theorem completeRegistry_mem_cols (f : Frame) (reg : List String) (fld : String)
    (hmem : fld ∈ reg) : fld ∈ (completeRegistry f reg).cols := by
  rw [completeRegistry_cols]
  by_cases hc : fld ∈ f.cols
  · exact List.mem_append_left _ hc
  · exact List.mem_append_right _ (mem_missingFields fld reg f.cols hmem hc)

theorem completeRegistry_nodup (f : Frame) (reg : List String)
    (hnd : f.cols.Nodup) : (completeRegistry f reg).cols.Nodup := by
  rw [completeRegistry_cols]
  rw [List.nodup_append]
  refine ⟨hnd, missingFields_nodup reg f.cols, ?_⟩
  intro x hx hx'
  exact missingFields_not_mem reg f.cols x hx' hx

theorem completeRegistry_wfb (f : Frame) (reg : List String)
    (hwf : f.wfb = true) : (completeRegistry f reg).wfb = true := by
  rw [completeRegistry_eq reg f, Frame.wfb]
  apply List.all_eq_true.mpr
  intro x hx
  rcases List.mem_map.mp hx with ⟨r, hr, hxr⟩
  rw [Frame.wfb] at hwf
  have hlen := List.all_eq_true.mp hwf r hr
  simp only [decide_eq_true_eq] at hlen ⊢
  rw [← hxr]
  simp [hlen]

theorem map_const_replicate {α β : Type} (b : β) (l : List α) :
    l.map (fun _ => b) = List.replicate l.length b := by
  induction l with
  | nil => rfl
  | cons a t ih => rw [List.map_cons, List.length_cons, List.replicate_succ, ih]

theorem getD_replicate_self {α : Type} (a : α) (n : Nat) :
    ∀ j, (List.replicate n a).getD j a = a := by
  induction n with
  | zero => intro j; simp
  | succ n ih =>
      intro j
      rw [List.replicate_succ]
      cases j with
      | zero => rfl
      | succ j => simpa using ih j

theorem selectCols_cols (f : Frame) (names : List String) (hnd : f.cols.Nodup)
    (hsub : ∀ n ∈ names, n ∈ f.cols) : (selectCols f names).cols = names := by
  induction names with
  | nil => rfl
  | cons n ns ih =>
      rcases indicesOf_singleton_of_nodup n f.cols hnd (hsub n (by simp))
        with ⟨i, hi, hg, he⟩
      show ((n :: ns).flatMap (fun m => indicesOf m f.cols)).map
        (fun i => f.cols.getD i "") = n :: ns
      rw [List.flatMap_cons, he, List.map_append]
      have h1 : ([i].map (fun i => f.cols.getD i "")) = [n] := by
        rw [List.map_cons, List.map_nil, hg]
      rw [h1]
      have h2 : (List.map (fun i => f.cols.getD i "")
          (ns.flatMap fun m => indicesOf m f.cols)) = ns :=
        ih (fun m hm => hsub m (List.mem_cons_of_mem n hm))
      simp only [List.cons_append, List.nil_append]
      rw [h2]

theorem completeRegistry_null_col (f : Frame) (reg : List String) (fld : String)
    (hwf : f.wfb = true) (hmem : fld ∈ reg) (hnc : ¬ fld ∈ f.cols) :
    colCells (completeRegistry f reg) fld
      = some (List.replicate f.rows.length Cell.null) := by
  rw [completeRegistry_eq reg f]
  have hfM : fld ∈ missingFields f.cols reg := mem_missingFields fld reg f.cols hmem hnc
  rcases indicesOfAux_singleton_of_nodup fld (missingFields f.cols reg)
    (missingFields_nodup reg f.cols) hfM f.cols.length with ⟨j, hj, hg, he⟩
  have hidx : indicesOf fld (f.cols ++ missingFields f.cols reg)
      = [f.cols.length + j] := by
    rw [indicesOf, indicesOfAux_append]
    rw [indicesOfAux_eq_nil_of_not_mem fld f.cols 0 hnc, List.nil_append]
    rw [Nat.zero_add]
    exact he
  show colCells ⟨f.cols ++ missingFields f.cols reg, _⟩ fld = _
  rw [colCells]
  simp only [hidx]
  congr 1
  rw [List.map_map]
  have hmap : f.rows.map ((fun r => cellAt r (f.cols.length + j)) ∘
      (fun r => r ++ List.replicate (missingFields f.cols reg).length Cell.null))
      = f.rows.map (fun _ => Cell.null) := by
    apply List.map_congr_left
    intro r hr
    show cellAt (r ++ List.replicate (missingFields f.cols reg).length Cell.null)
      (f.cols.length + j) = Cell.null
    rw [Frame.wfb] at hwf
    have hrl := List.all_eq_true.mp hwf r hr
    simp only [decide_eq_true_eq] at hrl
    show (r ++ List.replicate (missingFields f.cols reg).length Cell.null).getD
      (f.cols.length + j) Cell.null = Cell.null
    rw [← hrl, getD_append_right_len]
    exact getD_replicate_self Cell.null _ j
  rw [hmap, map_const_replicate]

/-- C1 counterexample: an input frame carrying both the alias header
`Юридическое лицо` and its canonical name `Юр_лицо` (plus a `Год` column so
headers are trusted).  The alias rename gives two columns labelled
`Юр_лицо`; with registry `["Юр_лицо"]` the projection `df[ordered]` expands
the duplicated label, so the returned frame has two columns — not exactly
the registry's fields. -/
theorem parse_file_duplicate_column_cex :
    parse_file ⟨["Год", "Юридическое лицо", "Юр_лицо"],
        [[Cell.str "2024", Cell.str "A", Cell.str "B"]]⟩ ["Юр_лицо"] []
      = .ok ⟨["Юр_лицо", "Юр_лицо"], [[Cell.str "A", Cell.str "B"]]⟩ ∧
    ¬ ((⟨["Юр_лицо", "Юр_лицо"], [[Cell.str "A", Cell.str "B"]]⟩ : Frame).cols
        = ["Юр_лицо"]) :=
  ⟨by decide, by decide⟩

/-- C1 amended: when header reconciliation succeeds and produces no
duplicate column label, the frame returned by `parse_file` has exactly the
registry's fields as its columns, in registry order; every registry field
absent from the renamed input is created as an all-null column at the
registry-completion step; and every input column not in the registry is
dropped.  (The header-alias map can merge two distinct input headers into
one name; such duplicated labels survive projection, see the
counterexample.) -/
theorem parse_file_registry_shape (df rdf out : Frame) (registry : List String)
    (rulesTbl : List Rule)
    (hr : renameHeaders df = .ok rdf) (hnd : rdf.cols.Nodup) (hwf : rdf.wfb = true)
    (hok : parse_file df registry rulesTbl = .ok out) :
    out.cols = registry ∧
    (∀ c ∈ rdf.cols, ¬ c ∈ registry → ¬ c ∈ out.cols) ∧
    (∀ fld ∈ registry, ¬ fld ∈ rdf.cols →
      colCells (completeRegistry rdf registry) fld
        = some (List.replicate rdf.rows.length Cell.null)) := by
  rw [parse_file, hr] at hok
  have hok2 : (apply_mapping_rules (completeRegistry rdf registry)
      (load_mapping_rules rulesTbl) >>= fun f3 =>
        coerce_types f3 >>= fun f4 =>
          Except.ok (selectCols f4 (registry.filter (fun c => c ∈ f4.cols))))
      = .ok out := hok
  cases h3 : apply_mapping_rules (completeRegistry rdf registry)
      (load_mapping_rules rulesTbl) with
  | error e => rw [h3] at hok2; exact Except.noConfusion hok2
  | ok f3 =>
      rw [h3] at hok2
      have hok3 : (coerce_types f3 >>= fun f4 =>
          Except.ok (selectCols f4 (registry.filter (fun c => c ∈ f4.cols))))
          = .ok out := hok2
      cases h4 : coerce_types f3 with
      | error e => rw [h4] at hok3; exact Except.noConfusion hok3
      | ok f4 =>
          rw [h4] at hok3
          have hsel : (Except.ok (selectCols f4
              (registry.filter (fun c => c ∈ f4.cols))) : Except String Frame)
              = .ok out := hok3
          injection hsel with hsel'
          have hc3 : f3.cols = (completeRegistry rdf registry).cols :=
            (apply_mapping_rules_cols_wfb _ _ _ h3).1
          have hw3 : f3.wfb = true :=
            (apply_mapping_rules_cols_wfb _ _ _ h3).2
              (completeRegistry_wfb rdf registry hwf)
          have hnd3 : f3.cols.Nodup := by
            rw [hc3]
            exact completeRegistry_nodup rdf registry hnd
          have hc4 : f4.cols = f3.cols := (coerce_types_spec f3 f4 hnd3 hw3 h4).1
          have hcolsall : ∀ c ∈ registry, c ∈ f4.cols := by
            intro c hc
            rw [hc4, hc3]
            exact completeRegistry_mem_cols rdf registry c hc
          have hfilt : registry.filter (fun c => c ∈ f4.cols) = registry := by
            rw [List.filter_eq_self]
            intro c hc
            simpa using hcolsall c hc
          have hnd4 : f4.cols.Nodup := by rw [hc4]; exact hnd3
          have hcols : out.cols = registry := by
            rw [← hsel', hfilt]
            exact selectCols_cols f4 registry hnd4 hcolsall
          refine ⟨hcols, ?_, ?_⟩
          · intro c _ hcreg hcout
            rw [hcols] at hcout
            exact hcreg hcout
          · intro fld hmem hnc
            exact completeRegistry_null_col rdf registry fld hwf hmem hnc

/-- Witness for `parse_file_registry_shape`: a two-column input with `Год`
and the non-registry column `Лишняя`, registry `["Год", "Поставщик"]`: the
output columns are exactly the registry in order, `Лишняя` is dropped, and
the absent registry field `Поставщик` is completed as an all-null column. -/
theorem parse_file_registry_shape_witness :
    (⟨["Год", "Поставщик"], [[Cell.int 2024, Cell.null]]⟩ : Frame).cols
      = ["Год", "Поставщик"] ∧
    ¬ "Лишняя" ∈ (⟨["Год", "Поставщик"], [[Cell.int 2024, Cell.null]]⟩ : Frame).cols ∧
    colCells (completeRegistry ⟨["Год", "Лишняя"], [[Cell.str "2024", Cell.str "x"]]⟩
        ["Год", "Поставщик"]) "Поставщик"
      = some (List.replicate 1 Cell.null) := by
  have h := parse_file_registry_shape
    ⟨["Год", "Лишняя"], [[Cell.str "2024", Cell.str "x"]]⟩
    ⟨["Год", "Лишняя"], [[Cell.str "2024", Cell.str "x"]]⟩
    ⟨["Год", "Поставщик"], [[Cell.int 2024, Cell.null]]⟩
    ["Год", "Поставщик"] []
    (by decide) (by decide) (by decide) (by decide)
  refine ⟨h.1, ?_, ?_⟩
  · rw [h.1]
    decide
  · exact h.2.2 "Поставщик" (by decide) (by decide)

/-- C9: `ensure_column` is idempotent — on a table already containing the
column name it succeeds and changes nothing (whatever the declared type), and
calling it twice equals calling it once, on either backend. -/
theorem ensure_column_idempotent (remote : Bool) (tableCols : List (String × String))
    (column colType : String) :
    (column ∈ tableCols.map Prod.fst → ensure_column remote tableCols column colType = tableCols) ∧
    ensure_column remote (ensure_column remote tableCols column colType) column colType =
      ensure_column remote tableCols column colType := by
  constructor
  · intro hm
    unfold ensure_column
    by_cases hr : remote <;> simp [hr, hm]
  · by_cases hm : column ∈ tableCols.map Prod.fst
    · unfold ensure_column
      by_cases hr : remote <;> simp [hr, hm]
    · have h1 : ensure_column remote tableCols column colType
          = tableCols ++ [(column, colType)] := by
        unfold ensure_column
        by_cases hr : remote <;> simp [hr, hm]
      have hm2 : column ∈ (tableCols ++ [(column, colType)]).map Prod.fst := by
        simp
      rw [h1]
      unfold ensure_column
      by_cases hr : remote <;> simp [hr, hm2]

/-- Witness for `ensure_column_idempotent`: adding the existing column `id`
(with a different declared type) leaves the table unchanged, and a repeated
add of a fresh column equals a single add. -/
theorem ensure_column_idempotent_witness :
    ensure_column false [("id", "INTEGER")] "id" "TEXT" = [("id", "INTEGER")] ∧
    ensure_column true (ensure_column true [("id", "INTEGER")] "Регион" "TEXT") "Регион" "TEXT" =
      ensure_column true [("id", "INTEGER")] "Регион" "TEXT" :=
  ⟨(ensure_column_idempotent false [("id", "INTEGER")] "id" "TEXT").1 (by decide),
   (ensure_column_idempotent true [("id", "INTEGER")] "Регион" "TEXT").2⟩

/-- C6: a `"user"`-role principal deleting an upload it does not own gets
`False` back and the state is untouched; an `"admin"`-role principal deleting
an existing upload gets `True` and afterwards neither the upload row nor any
`data` row of that upload remains. -/
theorem delete_upload_permissions (db : Db) (uploadId : Nat) (email : String) :
    ((∀ u ∈ db.uploads, u.id = uploadId → ¬ u.uploaded_by = email) →
      delete_upload db uploadId email "user" = (false, db)) ∧
    ((∃ u ∈ db.uploads, u.id = uploadId) →
      (delete_upload db uploadId email "admin").1 = true ∧
      (∀ u ∈ (delete_upload db uploadId email "admin").2.uploads, ¬ u.id = uploadId) ∧
      (∀ r ∈ (delete_upload db uploadId email "admin").2.dataRows,
        ¬ r.upload_id = uploadId)) := by
  constructor
  · intro h
    unfold delete_upload
    rw [if_pos rfl]
    cases hf : db.uploads.find? (fun u => u.id == uploadId) with
    | none => rfl
    | some u =>
        have hmem := List.mem_of_find?_eq_some hf
        have hid : u.id = uploadId := by
          have := List.find?_some hf
          simpa using this
        simp [h u hmem hid]
  · intro _
    unfold delete_upload
    refine ⟨by simp, ?_, ?_⟩
    · intro u hu
      simp only [if_neg (by simp : ¬ ("admin" : String) = "user")] at hu
      simpa using (List.mem_filter.mp hu).2
    · intro r hr
      simp only [if_neg (by simp : ¬ ("admin" : String) = "user")] at hr
      simpa using (List.mem_filter.mp hr).2

/-- Witness for `delete_upload_permissions`: `bob@x` (role `user`) cannot
delete upload 1 owned by `alice@x` and nothing changes; an admin deleting
upload 1 succeeds and removes the upload and its two data rows. -/
theorem delete_upload_permissions_witness :
    delete_upload ⟨[⟨1, "f.xlsx", "alice@x", "t"⟩], [⟨1, 1, "alice@x"⟩, ⟨2, 1, "alice@x"⟩]⟩
        1 "bob@x" "user"
      = (false, ⟨[⟨1, "f.xlsx", "alice@x", "t"⟩], [⟨1, 1, "alice@x"⟩, ⟨2, 1, "alice@x"⟩]⟩) ∧
    (delete_upload ⟨[⟨1, "f.xlsx", "alice@x", "t"⟩], [⟨1, 1, "alice@x"⟩, ⟨2, 1, "alice@x"⟩]⟩
        1 "bob@x" "admin").1 = true :=
  ⟨(delete_upload_permissions
      ⟨[⟨1, "f.xlsx", "alice@x", "t"⟩], [⟨1, 1, "alice@x"⟩, ⟨2, 1, "alice@x"⟩]⟩
      1 "bob@x").1 (by decide),
   ((delete_upload_permissions
      ⟨[⟨1, "f.xlsx", "alice@x", "t"⟩], [⟨1, 1, "alice@x"⟩, ⟨2, 1, "alice@x"⟩]⟩
      1 "bob@x").2 ⟨⟨1, "f.xlsx", "alice@x", "t"⟩, by decide, rfl⟩).1⟩

/-- C10: on an upload id that exists nowhere, `delete_upload` returns `False`
for a `"user"`-role principal but `True` for an `"admin"`-role principal — in
both cases deleting nothing — so the two roles observe different results for
the same absent upload. -/
theorem delete_upload_absent_id (db : Db) (uploadId : Nat) (email : String)
    (habs : ∀ u ∈ db.uploads, ¬ u.id = uploadId) :
    delete_upload db uploadId email "user" = (false, db) ∧
    ((∀ r ∈ db.dataRows, ¬ r.upload_id = uploadId) →
      delete_upload db uploadId email "admin" = (true, db)) ∧
    (delete_upload db uploadId email "admin").1 ≠
      (delete_upload db uploadId email "user").1 := by
  have hfind : db.uploads.find? (fun u => u.id == uploadId) = none := by
    rw [List.find?_eq_none]
    intro u hu
    simpa using habs u hu
  have huser : delete_upload db uploadId email "user" = (false, db) := by
    unfold delete_upload
    rw [if_pos rfl, hfind]
  refine ⟨huser, ?_, ?_⟩
  · intro hrows
    unfold delete_upload
    rw [if_neg (by simp : ¬ ("admin" : String) = "user")]
    have h1 : db.uploads.filter (fun u => decide (¬ u.id = uploadId)) = db.uploads := by
      rw [List.filter_eq_self]
      intro u hu
      simpa using habs u hu
    have h2 : db.dataRows.filter (fun r => decide (¬ r.upload_id = uploadId)) = db.dataRows := by
      rw [List.filter_eq_self]
      intro r hr
      simpa using hrows r hr
    rw [h1, h2]
  · have hadmin : (delete_upload db uploadId email "admin").1 = true := by
      unfold delete_upload
      rw [if_neg (by simp : ¬ ("admin" : String) = "user")]
    rw [hadmin, huser]
    simp

/-- Witness for `delete_upload_absent_id`: upload id 99 exists in neither
table; the user-role call returns `False`, the admin-role call returns `True`,
and neither changes the state. -/
theorem delete_upload_absent_id_witness :
    delete_upload ⟨[⟨1, "f.xlsx", "alice@x", "t"⟩], [⟨1, 1, "alice@x"⟩]⟩ 99 "alice@x" "user"
      = (false, ⟨[⟨1, "f.xlsx", "alice@x", "t"⟩], [⟨1, 1, "alice@x"⟩]⟩) ∧
    delete_upload ⟨[⟨1, "f.xlsx", "alice@x", "t"⟩], [⟨1, 1, "alice@x"⟩]⟩ 99 "alice@x" "admin"
      = (true, ⟨[⟨1, "f.xlsx", "alice@x", "t"⟩], [⟨1, 1, "alice@x"⟩]⟩) := by
  have h := delete_upload_absent_id
    ⟨[⟨1, "f.xlsx", "alice@x", "t"⟩], [⟨1, 1, "alice@x"⟩]⟩ 99 "alice@x" (by decide)
  exact ⟨h.1, h.2.1 (by decide)⟩

/-- C8: the admin-tab remove-field operation rejects every protected field
with an error and performs no registry mutation, and removes the registry
entry of every non-protected field while keeping all others. -/
theorem remove_field_protection (reg : List RegEntry) (field : String) :
    (field ∈ PROTECTED_FIELDS → ∃ msg, admin_delete_field reg field = .error msg) ∧
    (¬ field ∈ PROTECTED_FIELDS →
      admin_delete_field reg field = .ok (delete_field_registry reg field) ∧
      (∀ e ∈ delete_field_registry reg field, ¬ e.field = field) ∧
      (∀ e ∈ reg, ¬ e.field = field → e ∈ delete_field_registry reg field)) := by
  constructor
  · intro hp
    exact ⟨"'" ++ field ++ "' защищено от удаления.", by simp [admin_delete_field, hp]⟩
  · intro hp
    refine ⟨by simp [admin_delete_field, hp], ?_, ?_⟩
    · intro e he
      have := (List.mem_filter.mp he).2
      simpa using this
    · intro e he hne
      exact List.mem_filter.mpr ⟨he, by simpa using hne⟩

/-- Witness for `remove_field_protection`: deleting the protected field
`Год` errors, deleting the unprotected field `Регион` removes exactly its
entry. -/
theorem remove_field_protection_witness :
    (∃ msg, admin_delete_field [⟨"Год", "TEXT", "t"⟩, ⟨"Регион", "TEXT", "t"⟩] "Год"
        = .error msg) ∧
    admin_delete_field [⟨"Год", "TEXT", "t"⟩, ⟨"Регион", "TEXT", "t"⟩] "Регион"
        = .ok [⟨"Год", "TEXT", "t"⟩] :=
  ⟨(remove_field_protection [⟨"Год", "TEXT", "t"⟩, ⟨"Регион", "TEXT", "t"⟩] "Год").1
      (by decide),
   by
    have h := (remove_field_protection
      [⟨"Год", "TEXT", "t"⟩, ⟨"Регион", "TEXT", "t"⟩] "Регион").2 (by decide)
    rw [h.1]
    decide⟩

/-- C7 counterexample: on the local (SQLite) engine, renaming `Регион` to
`Область` updates the registry and leaves the physical column unrenamed, yet
the operation surfaces exactly the same (absent) warning as the fully
successful remote rename — the caller cannot distinguish the partial success
from full success, contradicting the claim that a warning is surfaced. -/
theorem rename_column_no_warning_cex :
    (update_field_registry false ⟨[⟨"Регион", "TEXT", "t0"⟩], ["Регион"]⟩
        "Регион" "Область" "TEXT").1.registry = [⟨"Область", "TEXT", "t0"⟩] ∧
    (update_field_registry false ⟨[⟨"Регион", "TEXT", "t0"⟩], ["Регион"]⟩
        "Регион" "Область" "TEXT").1.dataCols = ["Регион"] ∧
    (update_field_registry true ⟨[⟨"Регион", "TEXT", "t0"⟩], ["Регион"]⟩
        "Регион" "Область" "TEXT").1.dataCols = ["Область"] ∧
    (update_field_registry false ⟨[⟨"Регион", "TEXT", "t0"⟩], ["Регион"]⟩
        "Регион" "Область" "TEXT").2 =
      (update_field_registry true ⟨[⟨"Регион", "TEXT", "t0"⟩], ["Регион"]⟩
        "Регион" "Область" "TEXT").2 := by
  decide

/-- C7 amended: on the backend without native column rename (local SQLite),
`update_field_registry` updates the registry entry, leaves the physical
columns untouched and does not crash, but surfaces no warning at all — its
return signal is `none` exactly as on the fully supported remote path. -/
theorem rename_column_local_silent (st : SchemaState)
    (oldField newField newType : String) (h : ¬ oldField = newField) :
    (update_field_registry false st oldField newField newType).1.registry =
      st.registry.map (fun e =>
        if e.field = oldField then ⟨newField, newType, e.created_at⟩ else e) ∧
    (update_field_registry false st oldField newField newType).1.dataCols = st.dataCols ∧
    (update_field_registry false st oldField newField newType).2 = none ∧
    (update_field_registry true st oldField newField newType).2 = none := by
  unfold update_field_registry
  simp [h]

/-- Witness for `rename_column_local_silent` at the concrete rename
`Регион → Область`. -/
theorem rename_column_local_silent_witness :
    (update_field_registry false ⟨[⟨"Регион", "TEXT", "t0"⟩], ["Регион"]⟩
        "Регион" "Область" "TEXT").1.dataCols = ["Регион"] ∧
    (update_field_registry false ⟨[⟨"Регион", "TEXT", "t0"⟩], ["Регион"]⟩
        "Регион" "Область" "TEXT").2 = none :=
  ⟨(rename_column_local_silent ⟨[⟨"Регион", "TEXT", "t0"⟩], ["Регион"]⟩
      "Регион" "Область" "TEXT" (by decide)).2.1,
   (rename_column_local_silent ⟨[⟨"Регион", "TEXT", "t0"⟩], ["Регион"]⟩
      "Регион" "Область" "TEXT" (by decide)).2.2.1⟩

end Elta
